import Mathlib

/-!
Verification of the Spine AI review tool core against its specification.

The development shallowly embeds the two core subsystems:

* the report content pipeline of `frontend/src/utils/reportFormat.js`
  (`markdownToHtmlAsync`, `enhanceReportHtml`, `htmlToPlainText`) and the
  report panel of `ReportViewer.jsx` (`saveEdit`, confidence badges), and
* the image session of `DICOMViewer.jsx` (navigation, the cancelable load
  effect) together with `cornerstoneInit.js` (`initCornerstone`).

JavaScript strings are modelled as Lean `String`/`List Char`; the regular
expressions of the source are modelled by explicit scanners; the browser's
`DOMParser`/`innerHTML` pair is modelled by a small HTML parser and
serializer over an explicit node tree.  Whitespace classes (`\s`, `trim`)
are modelled by their ASCII part.
-/

set_option maxRecDepth 4000

namespace Spine

/-! ### Character helpers -/

/-- ASCII lower-casing, the relevant fragment of JavaScript `toLowerCase`. -/
def lowc (c : Char) : Char :=
  if 'A' ≤ c ∧ c ≤ 'Z' then Char.ofNat (c.toNat + 32) else c

/-- ASCII upper-casing, the relevant fragment of JavaScript `toUpperCase`. -/
def upc (c : Char) : Char :=
  if 'a' ≤ c ∧ c ≤ 'z' then Char.ofNat (c.toNat - 32) else c

/-- Word characters of the regex class `\w` = `[A-Za-z0-9_]`. -/
def isWordChar (c : Char) : Bool :=
  ('A' ≤ c && c ≤ 'Z') || ('a' ≤ c && c ≤ 'z') || ('0' ≤ c && c ≤ '9') || c = '_'

/-- ASCII part of the JavaScript whitespace class `\s` (also used by `trim`). -/
def wsp (c : Char) : Bool :=
  c = ' ' || c = '\t' || c = '\n' || c = '\x0d' || c = '\x0b' || c = '\x0c'

/-- Horizontal whitespace, the class `[ \t]` of `htmlToPlainText`. -/
def isHS (c : Char) : Bool := c = ' ' || c = '\t'

def isAsciiLetter (c : Char) : Bool :=
  ('A' ≤ c && c ≤ 'Z') || ('a' ≤ c && c ≤ 'z')

def isDigitChar (c : Char) : Bool := '0' ≤ c && c ≤ '9'

/-- The apostrophe character. -/
def squote : Char := Char.ofNat 39

/-- The non-breaking-space character decoded from the `&nbsp;` entity. -/
def nbspChar : Char := Char.ofNat 160

/-! ### List-of-characters helpers -/

/-- `startsL w l`: `w` is a prefix of `l` (exact characters). -/
def startsL : List Char → List Char → Bool
  | [], _ => true
  | _ :: _, [] => false
  | a :: w, b :: l => a = b && startsL w l

/-- Case-insensitive (ASCII) prefix test. -/
def startsCI : List Char → List Char → Bool
  | [], _ => true
  | _ :: _, [] => false
  | a :: w, b :: l => lowc a = lowc b && startsCI w l

/-- `hasSubL w l`: `w` occurs as a contiguous substring of `l`. -/
def hasSubL (w : List Char) : List Char → Bool
  | [] => startsL w []
  | c :: rest => startsL w (c :: rest) || hasSubL w rest

def lowerL (l : List Char) : List Char := l.map lowc

def upperL (l : List Char) : List Char := l.map upc

/-- Remove trailing whitespace. -/
def rstripWS : List Char → List Char
  | [] => []
  | c :: rest =>
    let r := rstripWS rest
    if r.isEmpty && wsp c then [] else c :: r

/-- Model of JavaScript `String.prototype.trim` (ASCII whitespace). -/
def trimC (l : List Char) : List Char := rstripWS (l.dropWhile wsp)

def trimS (s : String) : String := (trimC s.data).asString

def lowerS (s : String) : String := (lowerL s.data).asString

def upperS (s : String) : String := (upperL s.data).asString

def hasSubStr (pat s : String) : Bool := hasSubL pat.data s.data

/-! ### Regex models for the keyword heuristics of `reportFormat.js`

`levelTest` models `/\b(L[1-5]-L[2-5]|L[1-5]-S1)\b/i.test`, and `wordScan`
models `\b(w1|w2|…)\b` alternations with the `i` flag, where each
alternative is a literal (possibly containing spaces, as in
`no (evidence of|acute|significant)` which expands to the three literals
`no evidence of`, `no acute`, `no significant`). -/

/-- Word boundary on the left of a match position: start of string or a
non-word character before it. -/
def boundL : Option Char → Bool
  | none => true
  | some c => !isWordChar c

/-- Word boundary on the right: end of string or a non-word character next. -/
def boundR : List Char → Bool
  | [] => true
  | c :: _ => !isWordChar c

/-- Does one alternative of `L[1-5]-L[2-5]|L[1-5]-S1` match at the head
(case-insensitively), with the closing word boundary? -/
def levelHere : List Char → Bool
  | c0 :: c1 :: c2 :: c3 :: c4 :: rest =>
    lowc c0 = 'l' && ('1' ≤ c1 && c1 ≤ '5') && c2 = '-' &&
      ((lowc c3 = 'l' && ('2' ≤ c4 && c4 ≤ '5')) || (lowc c3 = 's' && c4 = '1')) &&
      boundR rest
  | _ => false

/-- Scan for the level pattern; `prev` is the character before the head. -/
def levelScan (prev : Option Char) : List Char → Bool
  | [] => false
  | c :: rest => (boundL prev && levelHere (c :: rest)) || levelScan (some c) rest

/-- Model of `levelPattern.test` from `enhanceReportHtml`. -/
def levelTest (s : String) : Bool := levelScan none s.data

/-- Does some literal of `ws` match at the head with its closing boundary? -/
def anyWordHere (ws : List (List Char)) (l : List Char) : Bool :=
  ws.any fun w => startsCI w l && boundR (l.drop w.length)

def wordScan (ws : List (List Char)) (prev : Option Char) : List Char → Bool
  | [] => false
  | c :: rest => (boundL prev && anyWordHere ws (c :: rest)) || wordScan ws (some c) rest

def wordListTest (ws : List String) (s : String) : Bool :=
  wordScan (ws.map String.data) none s.data

/-- The alternatives of `ABNORMAL_KEYWORDS` in `reportFormat.js`. -/
def ABNORMAL_WORDS : List String :=
  ["bulge", "bulging", "herniation", "herniated", "stenosis", "narrowing",
   "compression", "compressed", "effacement", "impingement", "extrusion",
   "sequestration", "degenerative", "tear", "tearing", "abnormal",
   "pathology", "lesion"]

/-- The alternatives of `NORMAL_KEYWORDS`; the group
`no (evidence of|acute|significant)` is expanded into its three literals. -/
def NORMAL_WORDS : List String :=
  ["normal", "unremarkable", "no evidence of", "no acute", "no significant",
   "intact", "preserved", "mild"]

/-- Model of `ABNORMAL_KEYWORDS.test`. -/
def abnormalTest (s : String) : Bool := wordListTest ABNORMAL_WORDS s

/-- Model of `NORMAL_KEYWORDS.test`. -/
def normalTest (s : String) : Bool := wordListTest NORMAL_WORDS s

theorem levelTest_ex1 : levelTest "L4-L5: moderate disc bulge" = true := by decide
theorem levelTest_ex2 : levelTest "l5-s1 ok" = true := by decide
theorem levelTest_ex3 : levelTest "XL4-L5" = false := by decide
theorem levelTest_ex4 : levelTest "no level here" = false := by decide
theorem abnormalTest_ex1 : abnormalTest "disc bulge here" = true := by decide
theorem abnormalTest_ex2 : abnormalTest "bulges" = false := by decide
theorem normalTest_ex1 : normalTest "mild stenosis" = true := by decide
theorem normalTest_ex2 : normalTest "abnormal" = false := by decide
theorem normalTest_ex3 : normalTest "no evidence of tear" = true := by decide

/-! ### HTML node trees

A parsed document fragment, the shape exposed by `DOMParser` /
`document.body` that `enhanceReportHtml` walks: text nodes and element
nodes with a tag, an attribute list and children.  Tag and attribute names
are stored lower-cased, as the browser canonicalizes them. -/

inductive HNode where
  | text : String → HNode
  | elem : String → List (String × String) → List HNode → HNode

/-! `tcN`/`tcL`: `textContent` of a node (concatenated descendant text). -/
mutual
def tcN : HNode → String
  | .text s => s
  | .elem _ _ cs => tcL cs
def tcL : List HNode → String
  | [] => ""
  | n :: ns => tcN n ++ tcL ns
end

/-! ### Attribute and class-list helpers (model of `Element.classList`) -/

def getAttr : List (String × String) → String → Option String
  | [], _ => none
  | (n, v) :: rest, name => if n = name then some v else getAttr rest name

def setAttr : List (String × String) → String → String → List (String × String)
  | [], name, v => [(name, v)]
  | (n, w) :: rest, name, v =>
    if n = name then (n, v) :: rest else (n, w) :: setAttr rest name v

def splitWspAux : List Char → List Char → List (List Char)
  | acc, [] => if acc.isEmpty then [] else [acc.reverse]
  | acc, c :: rest =>
    if wsp c then
      if acc.isEmpty then splitWspAux [] rest else acc.reverse :: splitWspAux [] rest
    else splitWspAux (c :: acc) rest

/-- The whitespace-separated tokens of a `class` attribute value. -/
def classTokens (v : String) : List String := (splitWspAux [] v.data).map List.asString

def hasClassA (a : List (String × String)) (cls : String) : Bool :=
  match getAttr a "class" with
  | none => false
  | some v => (classTokens v).contains cls

/-- Model of `classList.add(cls)`: a no-op when the token is present,
otherwise the token is appended to the `class` attribute (creating it when
absent). -/
def addClass (a : List (String × String)) (cls : String) : List (String × String) :=
  match getAttr a "class" with
  | none => a ++ [("class", cls)]
  | some v =>
    if (classTokens v).contains cls then a
    else setAttr a "class" (if v = "" then cls else v ++ " " ++ cls)

def hasClassN (n : HNode) (cls : String) : Bool :=
  match n with
  | .elem _ a _ => hasClassA a cls
  | .text _ => false

/-! ### Level tinting (second pass of `enhanceReportHtml`)

Model of the `walk` closure: every element is visited depth-first; a `p`
or `div` whose trimmed `textContent` matches the level pattern and is
shorter than 800 characters gets `report-level-abnormal` when the abnormal
vocabulary matches and the normal one does not, else `report-level-normal`. -/

def ABN_CLASS : String := "report-level-abnormal"

def NRM_CLASS : String := "report-level-normal"

def tintAttrs (t : String) (a : List (String × String)) (txt : String) :
    List (String × String) :=
  if (t = "p" || t = "div") && levelTest txt && decide (txt.length < 800) then
    if abnormalTest txt && !normalTest txt then addClass a ABN_CLASS
    else if normalTest txt || !abnormalTest txt then addClass a NRM_CLASS
    else a
  else a

mutual
def tintN : HNode → HNode
  | .text s => .text s
  | .elem t a cs => .elem t (tintAttrs t a (trimS (tcL cs))) (tintL cs)
def tintL : List HNode → List HNode
  | [] => []
  | n :: ns => tintN n :: tintL ns
end

/-! ### Section wrapping (first pass of `enhanceReportHtml`)

The source takes a snapshot of all `h2` elements in document order; for a
classified one it creates a `div`, inserts it before the `h2` and moves the
`h2` and its following element siblings (up to, excluding, the next `h2`)
into it.  Non-element siblings (bare text nodes) are not moved: they are
left behind, after the wrapper.  Since each `h2`'s move is local to its own
parent's child list, the snapshot iteration is equivalent to wrapping every
child list independently, which `groupAux` does with an accumulator:
`some (cls, moved, strays)` is an open section with its collected element
nodes and left-behind text nodes. -/

def isH2 : HNode → Bool
  | .elem t _ _ => t = "h2"
  | .text _ => false

/-- The wrapper class a heading gets, from its trimmed upper-cased text. -/
def wrapClassOf (n : HNode) : Option String :=
  match n with
  | .elem t _ cs =>
    if t = "h2" then
      let title := upperS (trimS (tcL cs))
      if hasSubStr "IMPRESSION" title || hasSubStr "CONCLUSION" title then
        some "report-section-impression"
      else if hasSubStr "FINDINGS" title || hasSubStr "FINDING" title then
        some "report-section-findings"
      else none
    else none
  | .text _ => none

def closeAcc : Option (String × List HNode × List HNode) → List HNode
  | none => []
  | some (cls, buf, strays) => HNode.elem "div" [("class", cls)] buf :: strays

def groupAux : Option (String × List HNode × List HNode) → List HNode → List HNode
  | acc, [] => closeAcc acc
  | acc, n :: rest =>
    if isH2 n then
      match wrapClassOf n with
      | some cls => closeAcc acc ++ groupAux (some (cls, [n], [])) rest
      | none => closeAcc acc ++ n :: groupAux none rest
    else
      match acc with
      | none => n :: groupAux none rest
      | some (cls, buf, strays) =>
        match n with
        | .elem t a cs => groupAux (some (cls, buf ++ [.elem t a cs], strays)) rest
        | .text s => groupAux (some (cls, buf, strays ++ [.text s])) rest

/-! `wrapN`/`wrapList`: wrap sections in every child list of the tree (the
snapshot in the source finds `h2` elements at any depth and wraps each
within its own parent). -/
mutual
def wrapN : HNode → HNode
  | .text s => .text s
  | .elem t a cs => .elem t a (groupAux none (wrapList cs))
def wrapList : List HNode → List HNode
  | [] => []
  | n :: ns => wrapN n :: wrapList ns
end

def wrapAll (body : List HNode) : List HNode := groupAux none (wrapList body)

/-- The tree transformation of `enhanceReportHtml`: section wrapping, then
level tinting. -/
def enhanceL (body : List HNode) : List HNode := tintL (wrapAll body)

/-- Is there a bare text node among the siblings a section wrapper would
collect (the element run up to the next `h2`)? -/
def hasStrayBefore : List HNode → Bool
  | [] => false
  | .text _ :: _ => true
  | .elem t _ _ :: rest => if t = "h2" then false else hasStrayBefore rest

/-- A child list has, at its own level, a classified heading followed by a
stray text node in its collection range. -/
def topStray : List HNode → Bool
  | [] => false
  | n :: rest => ((wrapClassOf n).isSome && hasStrayBefore rest) || topStray rest

/-! `strayN`/`strayL`: somewhere in the tree, a classified heading has a
bare text node among the siblings its wrapper collects. -/
mutual
def strayN : HNode → Bool
  | .text _ => false
  | .elem _ _ cs => topStray cs || strayL cs
def strayL : List HNode → Bool
  | [] => false
  | n :: rest => strayN n || strayL rest
end

def strayDoc (l : List HNode) : Bool := topStray l || strayL l

/-! `secH2N`/`secH2L`: does the tree contain any heading that section
wrapping would classify (an `h2` whose text matches
FINDINGS/FINDING/IMPRESSION/CONCLUSION)? -/
mutual
def secH2N : HNode → Bool
  | .text _ => false
  | .elem t a cs => (wrapClassOf (.elem t a cs)).isSome || secH2L cs
def secH2L : List HNode → Bool
  | [] => false
  | n :: ns => secH2N n || secH2L ns
end

/-- The text already collected in an open section accumulator. -/
def accText : Option (String × List HNode × List HNode) → String
  | none => ""
  | some (_, buf, strays) => tcL buf ++ tcL strays

/-! ### HTML parsing and serialization

A deterministic model of `DOMParser().parseFromString(·, 'text/html')`
restricted to body content, and of `body.innerHTML`.  It is only a model
of the browser: comments and raw-text elements are not special-cased
(irrelevant here: sanitization drops `script`/`style` with their content),
and mismatched close tags are ignored. -/

def voidTags : List String := ["br", "hr"]

/-- Decode the character entities the serializer can produce. -/
def decodeEnts : List Char → List Char
  | [] => []
  | '&' :: 'a' :: 'm' :: 'p' :: ';' :: rest => '&' :: decodeEnts rest
  | '&' :: 'l' :: 't' :: ';' :: rest => '<' :: decodeEnts rest
  | '&' :: 'g' :: 't' :: ';' :: rest => '>' :: decodeEnts rest
  | '&' :: 'n' :: 'b' :: 's' :: 'p' :: ';' :: rest => nbspChar :: decodeEnts rest
  | '&' :: 'q' :: 'u' :: 'o' :: 't' :: ';' :: rest => '"' :: decodeEnts rest
  | c :: rest => c :: decodeEnts rest

def isTagNameChar (c : Char) : Bool := isAsciiLetter c || isDigitChar c

def isAttrNameChar (c : Char) : Bool :=
  !(wsp c) && c ≠ '>' && c ≠ '/' && c ≠ '=' && c ≠ '"' && c ≠ squote && c ≠ '<'

def parseAttrs : Nat → List Char → List (String × String) × List Char
  | 0, l => ([], l)
  | fuel + 1, l =>
    let l1 := l.dropWhile wsp
    match l1 with
    | [] => ([], [])
    | '>' :: rest => ([], rest)
    | '/' :: rest =>
      (match rest with
       | '>' :: rest2 => ([], rest2)
       | _ => parseAttrs fuel rest)
    | c :: rest =>
      if isAttrNameChar c then
        let name := (lowerL (l1.takeWhile isAttrNameChar)).asString
        let l2 := (l1.dropWhile isAttrNameChar).dropWhile wsp
        match l2 with
        | '=' :: l3 =>
          let l4 := l3.dropWhile wsp
          match l4 with
          | q :: l5 =>
            if q = '"' || q = squote then
              let v := l5.takeWhile (· ≠ q)
              let l6 := (l5.dropWhile (· ≠ q)).drop 1
              let (as2, rest2) := parseAttrs fuel l6
              ((name, (decodeEnts v).asString) :: as2, rest2)
            else
              let v := l4.takeWhile fun c => !(wsp c) && c ≠ '>'
              let l6 := l4.dropWhile fun c => !(wsp c) && c ≠ '>'
              let (as2, rest2) := parseAttrs fuel l6
              ((name, (decodeEnts v).asString) :: as2, rest2)
          | [] => ([(name, "")], [])
        | _ =>
          let (as2, rest2) := parseAttrs fuel l2
          ((name, "") :: as2, rest2)
      else parseAttrs fuel rest

def parseNodesAux : Nat → List Char → Option String → List HNode × List Char
  | 0, l, _ => ([], l)
  | _ + 1, [], _ => ([], [])
  | fuel + 1, '<' :: '/' :: rest, stop =>
    let name := (lowerL (rest.takeWhile isTagNameChar)).asString
    let aft := (rest.dropWhile (· ≠ '>')).drop 1
    if stop = some name then ([], aft)
    else parseNodesAux fuel aft stop
  | fuel + 1, '<' :: c :: rest, stop =>
    if isAsciiLetter c then
      let name := (lowerL ((c :: rest).takeWhile isTagNameChar)).asString
      let l2 := (c :: rest).dropWhile isTagNameChar
      let (attrs, l3) := parseAttrs fuel l2
      if voidTags.contains name then
        let (ns, l4) := parseNodesAux fuel l3 stop
        (.elem name attrs [] :: ns, l4)
      else
        let (cs, l4) := parseNodesAux fuel l3 (some name)
        let (ns, l5) := parseNodesAux fuel l4 stop
        (.elem name attrs cs :: ns, l5)
    else
      let raw := '<' :: (c :: rest).takeWhile (· ≠ '<')
      let l2 := (c :: rest).dropWhile (· ≠ '<')
      let (ns, l3) := parseNodesAux fuel l2 stop
      (.text (decodeEnts raw).asString :: ns, l3)
  | _ + 1, ['<'], _ => ([.text "<"], [])
  | fuel + 1, c :: rest, stop =>
    let raw := (c :: rest).takeWhile (· ≠ '<')
    let l2 := (c :: rest).dropWhile (· ≠ '<')
    let (ns, l3) := parseNodesAux fuel l2 stop
    (.text (decodeEnts raw).asString :: ns, l3)

/-- Parse an HTML fragment into the body's child list. -/
def parseBody (s : String) : List HNode := (parseNodesAux (s.length + 1) s.data none).1

def escText : List Char → List Char
  | [] => []
  | c :: rest =>
    if c = '&' then "&amp;".data ++ escText rest
    else if c = '<' then "&lt;".data ++ escText rest
    else if c = '>' then "&gt;".data ++ escText rest
    else if c = nbspChar then "&nbsp;".data ++ escText rest
    else c :: escText rest

def escAttrV : List Char → List Char
  | [] => []
  | c :: rest =>
    if c = '&' then "&amp;".data ++ escAttrV rest
    else if c = '"' then "&quot;".data ++ escAttrV rest
    else if c = nbspChar then "&nbsp;".data ++ escAttrV rest
    else c :: escAttrV rest

def serAttrs (a : List (String × String)) : String :=
  a.foldr (fun p acc => " " ++ p.1 ++ "=" ++ "\"" ++ (escAttrV p.2.data).asString ++ "\"" ++ acc) ""

/-! `serN`/`serL`: model of `innerHTML` serialization. -/
mutual
def serN : HNode → String
  | .text s => (escText s.data).asString
  | .elem t a cs =>
    if voidTags.contains t then "<" ++ t ++ serAttrs a ++ ">"
    else "<" ++ t ++ serAttrs a ++ ">" ++ serL cs ++ "</" ++ t ++ ">"
def serL : List HNode → String
  | [] => ""
  | n :: ns => serN n ++ serL ns
end

/-! ### Sanitization

Modelled from the spec: the sanitizer engine (`DOMPurify.sanitize`) is an
external library whose code is not in the repository; §4.3 describes it as
an allow-list sanitizer restricted to the configured structural tags and
the single attribute `class`.  Allowed elements are kept with class-only
attributes; executable/metadata containers (`script`, `style`, …) are
removed together with their content; any other disallowed element is
removed but its children are kept (the library's `KEEP_CONTENT` default).
The tag and attribute allow-lists below are exactly the `ALLOWED_TAGS` /
`ALLOWED_ATTR` configuration passed at every `sanitize` call site in the
repository. -/

def ALLOWED_TAGS : List String :=
  ["h1", "h2", "h3", "h4", "p", "br", "strong", "em", "b", "i", "u",
   "ul", "ol", "li", "span", "div", "blockquote", "hr"]

def FORBID_CONTENTS : List String :=
  ["script", "style", "title", "noscript", "head", "iframe", "object",
   "embed", "template"]

mutual
def sanN : HNode → List HNode
  | .text s => [.text s]
  | .elem t a cs =>
    if ALLOWED_TAGS.contains t then
      [.elem t (a.filter fun p => p.1 == "class") (sanL cs)]
    else if FORBID_CONTENTS.contains t then []
    else sanL cs
def sanL : List HNode → List HNode
  | [] => []
  | n :: ns => sanN n ++ sanL ns
end

/-! ### The string-level pipeline functions -/

/-- Model of `enhanceReportHtml` (string to string): empty guard, parse,
wrap, tint, re-serialize the body. -/
def enhanceReportHtmlM (html : String) : String :=
  if trimS html = "" then "" else serL (enhanceL (parseBody html))

/-- Model of a `DOMPurify.sanitize(raw, {ALLOWED_TAGS, ALLOWED_ATTR})`
call: parse, filter, serialize. -/
def sanitizeM (raw : String) : String := serL (sanL (parseBody raw))

/-- Model of `markdownToHtmlAsync` applied to the raw HTML it sanitizes
(for already-HTML input this is the trimmed input itself; for markdown
input it is whatever string `marked.parse` produced — the theorem below
quantifies over all raw strings, covering both branches). -/
def toSafeHtmlRawM (raw : String) : String := enhanceReportHtmlM (sanitizeM raw)

/-- The sanitized tree `markdownToHtmlAsync` displays; the implementation
serializes the sanitizer's output and re-parses it inside
`enhanceReportHtml`, which is the identity on well-formed sanitized
fragments, so the model composes the tree passes directly. -/
def toSafeTreeM (raw : String) : List HNode := enhanceL (sanL (parseBody raw))

/-- Model of `saveEdit` in `ReportViewer.jsx`: the committed report HTML is
exactly the sanitized edit buffer. -/
def saveEditM (editValue : String) : String := sanitizeM editValue

/-! `okTagsN`/`okTagsL`: every element of the tree has an allow-listed tag
and only `class` attributes. -/
mutual
def okTagsN : HNode → Bool
  | .text _ => true
  | .elem t a cs => ALLOWED_TAGS.contains t && a.all (fun p => p.1 == "class") && okTagsL cs
def okTagsL : List HNode → Bool
  | [] => true
  | n :: ns => okTagsN n && okTagsL ns
end

theorem sanitizeM_script_ex : sanitizeM "<script>alert(1)</script><p>ok</p>" = "<p>ok</p>" := by decide
theorem toSafeHtmlRawM_script_ex :
    toSafeHtmlRawM "<script>alert(1)</script><p>ok</p>" = "<p>ok</p>" := by decide
theorem enhanceReportHtmlM_findings_ex : enhanceReportHtmlM "<h2>FINDINGS</h2><p>x</p>" =
    "<div class=\"report-section-findings\"><h2>FINDINGS</h2><p>x</p></div>" := by decide

/-! ### The slice viewer: navigation and sequence state (`DICOMViewer.jsx`)

`goPrevU`/`goNextU` are the index updates of `goPrev`/`goNext` verbatim
(on `Int`, as JavaScript numbers).  In the component both are invocable
only through the Prev/Next buttons, which carry
`disabled={totalSlices <= 1}`, and through the keydown effect, which is
not installed when `totalSlices <= 1`; `stepDV` therefore guards the
update with `ids.length ≤ 1`.  `currentIndex` is `useState(0)` — it is
initialized once at mount and no code path touches it when the `imageIds`
prop is replaced, which `setSeq` models. -/

def goPrevU (total : Int) (i : Int) : Int := if i ≤ 0 then total - 1 else i - 1

def goNextU (total : Int) (i : Int) : Int := if total - 1 ≤ i then 0 else i + 1

structure DViewer where
  ids : List String
  index : Int
deriving DecidableEq

inductive DEv where
  | prev : DEv
  | next : DEv
  | setSeq : List String → DEv
deriving DecidableEq

def mountDV (ids : List String) : DViewer := ⟨ids, 0⟩

def stepDV (s : DViewer) : DEv → DViewer
  | .prev => if s.ids.length ≤ 1 then s else { s with index := goPrevU s.ids.length s.index }
  | .next => if s.ids.length ≤ 1 then s else { s with index := goNextU s.ids.length s.index }
  | .setSeq ids2 => { s with ids := ids2 }

def runDV (ids : List String) (evs : List DEv) : DViewer := evs.foldl stepDV (mountDV ids)

/-! ### The cancelable load effect (`DICOMViewer.jsx`, lines 57–84)

Each run of the load effect creates a fresh `cancelled` flag; the effect's
cleanup sets it, and React runs the cleanup of the previous run before the
next run (and navigation re-runs the effect).  A resolving load checks the
flag: when set, neither `displayImage` nor `setError` nor `setLoading` is
executed.  `SLoad` records one issued load (its tag `idx`, its closure's
`cancelled` flag, and whether its promise has settled).  `stepNav i` is a
re-run of the effect after `currentIndex` changed to `i`: cancel the
previous run's load, and — when `imageIds[i]` exists — clear the error,
set `loading`, and issue a new load tagged `i`. -/

structure SLoad where
  idx : Nat
  cancelled : Bool
  resolved : Bool
deriving DecidableEq

structure SSt where
  current : Nat
  displayed : Option Nat
  loading : Bool
  error : Option String
  loads : List SLoad
deriving DecidableEq

def cancelLast : List SLoad → List SLoad
  | [] => []
  | [l] => [{ l with cancelled := true }]
  | l :: rest => l :: cancelLast rest

def markRes : List SLoad → Nat → List SLoad
  | [], _ => []
  | l :: rest, 0 => { l with resolved := true } :: rest
  | l :: rest, k + 1 => l :: markRes rest k

def stepNav (N : Nat) (s : SSt) (i : Nat) : SSt :=
  let base := { s with current := i, loads := cancelLast s.loads }
  if i < N then
    { base with loading := true, error := none, loads := base.loads ++ [⟨i, false, false⟩] }
  else base

/-- A load's promise settles: `res = none` is a successful decode
(`displayImage` + `finally`), `res = some m` a failure.  A cancelled load
mutates nothing observable; a settled promise never fires again. -/
def stepResolve (s : SSt) (k : Nat) (res : Option String) : SSt :=
  match s.loads.get? k with
  | none => s
  | some l =>
    if l.resolved then s
    else
      let s1 := { s with loads := markRes s.loads k }
      if l.cancelled then s1
      else
        match res with
        | none => { s1 with displayed := some l.idx, loading := false }
        | some m => { s1 with error := some m, loading := false }

/-- The externally observable viewer state: current index, displayed
image index, loading flag, error overlay. -/
def obsOf (s : SSt) : Nat × Option Nat × Bool × Option String :=
  (s.current, s.displayed, s.loading, s.error)

inductive LEv where
  | nav : Nat → LEv
  | res : Nat → Option String → LEv
deriving DecidableEq

def blankS : SSt := ⟨0, none, false, none, []⟩

def stepL (N : Nat) (s : SSt) : LEv → SSt
  | .nav i => stepNav N s i
  | .res k r => stepResolve s k r

def runL (N : Nat) (evs : List LEv) : SSt := evs.foldl (stepL N) blankS

/-! ### `initCornerstone` (`cornerstoneInit.js`)

The module state is the pair of module-level variables
`initialized`/`initError`; a call first returns the memoized failure, then
the memoized success, and only otherwise runs the setup, whose outcome is
the `SetupRes` parameter (success, or a throw with a message). -/

inductive SetupRes where
  | ok : SetupRes
  | thr : String → SetupRes

structure CsSt where
  initialized : Bool
  initError : Option String
deriving DecidableEq

def csInit : CsSt := ⟨false, none⟩

inductive CsRes where
  | ok : CsRes
  | err : String → CsRes
deriving DecidableEq

/-- One call of `initCornerstone`; the `Bool` of the result records
whether the real setup body ran. -/
def initCornerstoneM (s : CsSt) (o : SetupRes) : CsRes × CsSt × Bool :=
  match s.initError with
  | some e => (.err e, s, false)
  | none =>
    if s.initialized then (.ok, s, false)
    else
      match o with
      | .ok => (.ok, ⟨true, none⟩, true)
      | .thr m => (.err m, ⟨s.initialized, some m⟩, true)

/-- A sequence of calls, threading the module state. -/
def runInit (s : CsSt) : List SetupRes → List (CsRes × Bool) × CsSt
  | [] => ([], s)
  | o :: os =>
    let r := initCornerstoneM s o
    let rs := runInit r.2.1 os
    ((r.1, r.2.2) :: rs.1, rs.2)

/-! ### Confidence tiers (`ReportViewer.jsx`)

`confOf` is `levelConfidence[level] || 'medium'` (the `||` default also
catches the empty string); `hasLowConfidence` and the badge rendering are
taken verbatim from the component. -/

def DISC_LEVELS : List String := ["L1-L2", "L2-L3", "L3-L4", "L4-L5", "L5-S1"]

def confOf (lc : String → Option String) (level : String) : String :=
  match lc level with
  | none => "medium"
  | some v => if v = "" then "medium" else v

def hasLowConfidence (lc : String → Option String) : Bool :=
  DISC_LEVELS.any (fun l => confOf lc l == "low")
    || DISC_LEVELS.any (fun l => confOf lc l == "medium")

def badgeTier (lc : String → Option String) (level : String) : String :=
  lowerS (confOf lc level)

def badgeLabel (lc : String → Option String) (level : String) : String :=
  let c := badgeTier lc level
  if c = "low" then "Low" else if c = "medium" then "Medium" else "High"

/-! ### `htmlToPlainText` (`reportFormat.js`, lines 147–155)

The chain of global regex replacements, stage by stage:
`st1` is `.replace(/<\/p>|<\/div>|<\/h[1-6]>|<br\s*\/?>/gi, '\n')`,
`stripTags` is `.replace(/<[^>]+>/g, '')`,
`repNbsp` is `.replace(/&nbsp;/g, ' ')`,
`chs` is `.replace(/[ \t]+/g, ' ')`,
`del5` is `.replace(/\n /g, '\n')`, `del6` is `.replace(/ \n/g, '\n')`,
`cnlS` is `.replace(/\n{3,}/g, '\n\n')`, and `trimC` is `.trim()`. -/

/-- Does the alternation `<\/p>|<\/div>|<\/h[1-6]>|<br\s*\/?>` match at
the head (case-insensitively)?  Returns the remainder after the match. -/
def m1 : List Char → Option (List Char)
  | '<' :: '/' :: c :: '>' :: rest =>
    if lowc c = 'p' then some rest else none
  | '<' :: '/' :: c1 :: c2 :: '>' :: rest =>
    if lowc c1 = 'h' && ('1' ≤ c2 && c2 ≤ '6') then some rest else none
  | _ => none

/-- `</div>` has length 6, handled separately from `m1`'s 4- and 5-char
patterns. -/
def m1div : List Char → Option (List Char)
  | '<' :: '/' :: c1 :: c2 :: c3 :: '>' :: rest =>
    if lowc c1 = 'd' && lowc c2 = 'i' && lowc c3 = 'v' then some rest else none
  | _ => none

/-- `<br\s*\/?>`: after `<br`, optional whitespace, optional `/`, `>`. -/
def m1br : List Char → Option (List Char)
  | '<' :: b :: r :: rest =>
    if lowc b = 'b' && lowc r = 'r' then
      match rest.dropWhile wsp with
      | '/' :: '>' :: rest2 => some rest2
      | '>' :: rest2 => some rest2
      | _ => none
    else none
  | _ => none

/-- The whole step-1 alternation. -/
def mStep1 (l : List Char) : Option (List Char) :=
  match m1 l with
  | some r => some r
  | none =>
    match m1div l with
    | some r => some r
    | none => m1br l

theorem length_dropWhile_below (p : Char → Bool) (l : List Char) :
    (l.dropWhile p).length ≤ l.length := by
  induction l with
  | nil => simp [List.dropWhile]
  | cons c rest ih =>
    by_cases h : p c
    · simp [List.dropWhile, h]; omega
    · simp [List.dropWhile, h]

theorem m1_length {l r : List Char} (h : m1 l = some r) : r.length < l.length := by
  unfold m1 at h
  split at h
  case _ c rest =>
    split at h
    · cases h; simp only [List.length_cons]; omega
    · simp at h
  case _ c1 c2 rest =>
    split at h
    · cases h; simp only [List.length_cons]; omega
    · simp at h
  case _ => simp at h

theorem m1div_length {l r : List Char} (h : m1div l = some r) : r.length < l.length := by
  unfold m1div at h
  split at h
  case _ c1 c2 c3 rest =>
    split at h
    · cases h; simp only [List.length_cons]; omega
    · simp at h
  case _ => simp at h

theorem m1br_length {l r : List Char} (h : m1br l = some r) : r.length < l.length := by
  unfold m1br at h
  split at h
  case _ b r2 rest =>
    split at h
    case isTrue =>
      have hdw : (rest.dropWhile wsp).length ≤ rest.length := length_dropWhile_below wsp rest
      split at h <;> simp_all <;> omega
    case isFalse => simp at h
  case _ => simp at h

theorem mStep1_length {l r : List Char} (h : mStep1 l = some r) : r.length < l.length := by
  unfold mStep1 at h
  cases hm : m1 l with
  | some r1 => rw [hm] at h; cases h; exact m1_length hm
  | none =>
    rw [hm] at h
    cases hd : m1div l with
    | some r1 => rw [hd] at h; cases h; exact m1div_length hd
    | none => rw [hd] at h; exact m1br_length h

/-- Step 1: the block-close / line-break alternation replaced by `\n`.
On a failed match at a `<` the scan moves one character forward, which is
what the global regex does (none of the skipped characters can begin a
match). -/
def st1 : List Char → List Char
  | [] => []
  | c :: rest =>
    match h : mStep1 (c :: rest) with
    | some rem => '\n' :: st1 rem
    | none => c :: st1 rest
termination_by l => l.length
decreasing_by
  · exact mStep1_length h
  · simp

/-- Step 2: `<[^>]+>` removed.  At a `<`, the greedy class runs to the
first `>`; the match succeeds iff there is such a `>` and at least one
character before it. -/
def stripTags : List Char → List Char
  | [] => []
  | '<' :: rest =>
    if rest.head? ≠ some '>' ∧ '>' ∈ rest then
      stripTags ((rest.dropWhile (· ≠ '>')).drop 1)
    else '<' :: stripTags rest
  | c :: rest => c :: stripTags rest
termination_by l => l.length
decreasing_by
  · have h1 := length_dropWhile_below (fun x : Char => !decide (x = '>')) rest
    have h2 : ((rest.dropWhile (fun x : Char => !decide (x = '>'))).drop 1).length ≤
        (rest.dropWhile (fun x : Char => !decide (x = '>'))).length := by
      rw [List.length_drop]; omega
    simp
    omega
  · simp
  · simp

/-- Step 3: `&nbsp;` (case-sensitive) replaced by a space. -/
def repNbsp : List Char → List Char
  | [] => []
  | '&' :: 'n' :: 'b' :: 's' :: 'p' :: ';' :: rest => ' ' :: repNbsp rest
  | c :: rest => c :: repNbsp rest

/-- Step 4: runs of `[ \t]` collapsed to a single space.  The flag records
whether the previous character was part of a run being collapsed. -/
def chs : Bool → List Char → List Char
  | _, [] => []
  | inRun, c :: rest =>
    if isHS c then
      if inRun then chs true rest else ' ' :: chs true rest
    else c :: chs false rest

/-- Step 5: a space directly after a newline removed. -/
def del5 : List Char → List Char
  | [] => []
  | '\n' :: ' ' :: rest => '\n' :: del5 rest
  | c :: rest => c :: del5 rest

/-- Step 6: a space directly before a newline removed. -/
def del6 : List Char → List Char
  | [] => []
  | ' ' :: '\n' :: rest => '\n' :: del6 rest
  | c :: rest => c :: del6 rest

/-- Step 7: runs of three or more newlines collapsed to two.  `k` counts
the newlines emitted for the current run, capped at 2. -/
def cnlS : Nat → List Char → List Char
  | _, [] => []
  | k, '\n' :: rest => if 2 ≤ k then cnlS k rest else '\n' :: cnlS (k + 1) rest
  | _, c :: rest => c :: cnlS 0 rest

/-- Model of `htmlToPlainText` on character lists. -/
def toPlainL (l : List Char) : List Char :=
  trimC (cnlS 0 (del6 (del5 (chs false (repNbsp (stripTags (st1 l)))))))

/-- Model of `htmlToPlainText`. -/
def htmlToPlainTextM (s : String) : String := (toPlainL s.data).asString

/-! ## Theorems -/

/-! ### C5: navigation wraparound -/

theorem stepDV_next_eq (ids : List String) (k : Int) (h2 : 2 ≤ ids.length)
    (hk : k < (ids.length : Int) - 1) (hk0 : 0 ≤ k) :
    stepDV ⟨ids, k⟩ DEv.next = ⟨ids, k + 1⟩ := by
  simp only [stepDV]
  rw [if_neg (by omega)]
  simp only [goNextU]
  rw [if_neg (by omega)]

theorem runNext_index (ids : List String) (h2 : 2 ≤ ids.length) :
    ∀ k, k < ids.length →
      (fun s => stepDV s DEv.next)^[k] (mountDV ids) = ⟨ids, (k : Int)⟩ := by
  intro k
  induction k with
  | zero => intro _; rfl
  | succ k ih =>
    intro hk
    rw [Function.iterate_succ_apply', ih (Nat.lt_of_succ_lt hk)]
    show stepDV ⟨ids, (k : Int)⟩ DEv.next = _
    rw [stepDV_next_eq ids k h2 (by omega) (by omega)]
    simp

/-- C5.  Navigation wraparound: with `N ≥ 2` images, `next` from index
`N-2` steps forward and from `N-1` wraps to `0`, so `N` presses of Next
from index `0` return to `0`; one press of Prev from index `0` yields
`N-1`; and with at most one image both operations leave the state
unchanged (the buttons render `disabled` and the key handler is not
installed, and with exactly one image the raw updates are the identity as
well). -/
theorem C5_nav_wraparound (ids : List String) (N : Nat) (hN : ids.length = N)
    (hge : 2 ≤ N) :
    ((fun s => stepDV s DEv.next)^[N] (mountDV ids)).index = 0
    ∧ (stepDV (mountDV ids) DEv.prev).index = (N : Int) - 1
    ∧ (∀ s : DViewer, s.ids.length ≤ 1 →
        stepDV s DEv.prev = s ∧ stepDV s DEv.next = s) := by
  subst hN
  refine ⟨?_, ?_, ?_⟩
  · obtain ⟨M, hM⟩ : ∃ M, ids.length = M + 1 := ⟨ids.length - 1, by omega⟩
    rw [hM, Function.iterate_succ_apply',
      runNext_index ids hge M (by omega)]
    simp only [stepDV]
    rw [if_neg (by omega)]
    simp only [goNextU]
    rw [if_pos (by omega)]
  · simp only [mountDV, stepDV]
    rw [if_neg (by omega)]
    simp [goPrevU]
  · intro s hs
    constructor <;> simp [stepDV, hs]

/-- Witness for C5 at the concrete sequence `["a", "b", "c"]`. -/
theorem C5_nav_wraparound_witness :
    ((fun s => stepDV s DEv.next)^[3] (mountDV ["a", "b", "c"])).index = 0
    ∧ (stepDV (mountDV ["a", "b", "c"]) DEv.prev).index = (3 : Int) - 1
    ∧ (∀ s : DViewer, s.ids.length ≤ 1 →
        stepDV s DEv.prev = s ∧ stepDV s DEv.next = s) :=
  C5_nav_wraparound ["a", "b", "c"] 3 rfl (by omega)

/-! ### C8: validity of `currentIndex` -/

/-- C8 counterexample.  Replacing the image sequence does not reset
`currentIndex`: after one `next` on a two-image sequence and a replacement
by the one-image sequence `["c"]`, the index is `1`, not `0`, and it is no
longer a valid index (`1 < 1` fails), refuting both the reset clause and
the validity invariant of the claim. -/
theorem C8_index_invariant_cex :
    runDV ["a", "b"] [DEv.next, DEv.setSeq ["c"]] = ⟨["c"], 1⟩
    ∧ (runDV ["a", "b"] [DEv.next, DEv.setSeq ["c"]]).index ≠ 0
    ∧ ¬ ((runDV ["a", "b"] [DEv.next, DEv.setSeq ["c"]]).index
          < ((["c"] : List String).length : Int)) := by
  refine ⟨?_, by decide, by decide⟩
  decide

theorem stepDV_nav_bounds (s : DViewer) (e : DEv)
    (he : e = DEv.prev ∨ e = DEv.next)
    (h0 : 0 ≤ s.index) (h1 : s.index < (s.ids.length : Int)) :
    (stepDV s e).ids = s.ids ∧ 0 ≤ (stepDV s e).index
      ∧ (stepDV s e).index < (s.ids.length : Int) := by
  rcases he with he | he <;> subst he <;> simp only [stepDV] <;>
    by_cases hle : s.ids.length ≤ 1
  · rw [if_pos hle]; exact ⟨rfl, h0, h1⟩
  · rw [if_neg hle]
    refine ⟨rfl, ?_, ?_⟩ <;> simp only [goPrevU] <;> split <;> omega
  · rw [if_pos hle]; exact ⟨rfl, h0, h1⟩
  · rw [if_neg hle]
    refine ⟨rfl, ?_, ?_⟩ <;> simp only [goNextU] <;> split <;> omega

theorem runDV_nav_invariant (ids : List String) (evs : List DEv)
    (hnav : ∀ e ∈ evs, e = DEv.prev ∨ e = DEv.next) (hne : ids ≠ []) :
    (runDV ids evs).ids = ids ∧ 0 ≤ (runDV ids evs).index
      ∧ (runDV ids evs).index < (ids.length : Int) := by
  suffices h : ∀ (evs : List DEv) (s : DViewer),
      (∀ e ∈ evs, e = DEv.prev ∨ e = DEv.next) →
      s.ids = ids → 0 ≤ s.index → s.index < (ids.length : Int) →
      (evs.foldl stepDV s).ids = ids ∧ 0 ≤ (evs.foldl stepDV s).index
        ∧ (evs.foldl stepDV s).index < (ids.length : Int) by
    refine h evs (mountDV ids) hnav rfl (by simp [mountDV]) ?_
    have : ids.length ≠ 0 := fun hz => hne (List.length_eq_zero.mp hz)
    simp [mountDV]
    omega
  intro evs
  induction evs with
  | nil => intro s _ hid h0 h1; exact ⟨hid, h0, h1⟩
  | cons e evs ih =>
    intro s hn hid h0 h1
    have he := hn e (List.mem_cons_self e evs)
    have hb := stepDV_nav_bounds s e he h0 (by rw [hid]; exact h1)
    have h22 := hb.2.2
    rw [hid] at h22
    exact ih (stepDV s e) (fun x hx => hn x (List.mem_cons_of_mem e hx))
      (hb.1.trans hid) hb.2.1 h22

/-- C8 amended.  The index starts at `0` on mount and navigation keeps it
a valid index of the mounted sequence (`0 ≤ i < N` for fixed non-empty
`imageIds`); but replacing the sequence leaves `currentIndex` untouched
(there is no reset to `0`), so after replacing a sequence by a shorter one
the index can be out of range; it is a number (initially `0`), never
undefined. -/
theorem C8_index_invariant_amended (ids : List String) (evs : List DEv)
    (hnav : ∀ e ∈ evs, e = DEv.prev ∨ e = DEv.next) (hne : ids ≠ []) :
    ((runDV ids evs).ids = ids ∧ 0 ≤ (runDV ids evs).index
      ∧ (runDV ids evs).index < (ids.length : Int))
    ∧ (∀ (t : DViewer) (ids2 : List String),
        stepDV t (DEv.setSeq ids2) = ⟨ids2, t.index⟩) := by
  refine ⟨runDV_nav_invariant ids evs hnav hne, fun t ids2 => rfl⟩

/-- Witness for C8 amended on a concrete navigation trace. -/
theorem C8_index_invariant_amended_witness :
    ((runDV ["a", "b"] [DEv.next, DEv.prev, DEv.prev]).ids = ["a", "b"]
      ∧ 0 ≤ (runDV ["a", "b"] [DEv.next, DEv.prev, DEv.prev]).index
      ∧ (runDV ["a", "b"] [DEv.next, DEv.prev, DEv.prev]).index
          < (((["a", "b"] : List String)).length : Int))
    ∧ (∀ (t : DViewer) (ids2 : List String),
        stepDV t (DEv.setSeq ids2) = ⟨ids2, t.index⟩) :=
  C8_index_invariant_amended ["a", "b"] [DEv.next, DEv.prev, DEv.prev]
    (by decide) (by decide)

/-! ### C1: stale-load rejection -/

theorem cancelLast_get? (ls : List SLoad) (k : Nat) :
    (cancelLast ls).get? k =
      if k + 1 = ls.length
      then (ls.get? k).map (fun l => { l with cancelled := true })
      else ls.get? k := by
  induction ls generalizing k with
  | nil => simp [cancelLast]
  | cons l rest ih =>
    cases rest with
    | nil =>
      cases k with
      | zero => simp [cancelLast]
      | succ k => simp [cancelLast]
    | cons l2 r2 =>
      cases k with
      | zero => simp [cancelLast]
      | succ k =>
        simp only [cancelLast, List.get?_cons_succ, List.length_cons]
        rw [ih k]
        by_cases h : k + 1 = (l2 :: r2).length
        · rw [if_pos h, if_pos (by simp at h ⊢; omega)]
        · rw [if_neg h, if_neg (by simp at h ⊢; omega)]

theorem cancelLast_length (ls : List SLoad) : (cancelLast ls).length = ls.length := by
  induction ls with
  | nil => rfl
  | cons l rest ih =>
    cases rest with
    | nil => rfl
    | cons l2 r2 => simpa [cancelLast] using ih

theorem markRes_get? (ls : List SLoad) (k0 k : Nat) :
    (markRes ls k0).get? k =
      if k = k0 then (ls.get? k).map (fun l => { l with resolved := true })
      else ls.get? k := by
  induction ls generalizing k0 k with
  | nil => simp [markRes]
  | cons l rest ih =>
    cases k0 with
    | zero =>
      cases k with
      | zero => simp [markRes]
      | succ k => simp [markRes]
    | succ k0 =>
      cases k with
      | zero => simp [markRes]
      | succ k => simpa [markRes] using ih k0 k

theorem markRes_length (ls : List SLoad) (k0 : Nat) :
    (markRes ls k0).length = ls.length := by
  induction ls generalizing k0 with
  | nil => rfl
  | cons l rest ih => cases k0 with
    | zero => rfl
    | succ k0 => simpa [markRes] using ih k0

/-- The only load whose `cancelled` flag is still unset is the one issued
by the latest effect run, and its tag is the current index. -/
def goodS (s : SSt) : Prop :=
  ∀ k l, s.loads.get? k = some l → l.cancelled = false →
    k + 1 = s.loads.length ∧ l.idx = s.current

theorem goodS_stepNav (N : Nat) (s : SSt) (i : Nat) (h : goodS s) :
    goodS (stepNav N s i) := by
  have hcl : ∀ k l, (cancelLast s.loads).get? k = some l → l.cancelled = false → False := by
    intro k l hget hc
    rw [cancelLast_get? s.loads k] at hget
    by_cases hk : k + 1 = s.loads.length
    · rw [if_pos hk] at hget
      cases hu : s.loads.get? k with
      | none => rw [hu] at hget; simp at hget
      | some l0 =>
        rw [hu] at hget
        simp only [Option.map_some'] at hget
        cases hget
        simp at hc
    · rw [if_neg hk] at hget
      exact hk (h k l hget hc).1
  unfold stepNav
  by_cases hi : i < N
  · rw [if_pos hi]
    intro k l hget hc
    simp only at hget
    by_cases hk : k < (cancelLast s.loads).length
    · rw [List.get?_append hk] at hget
      exact absurd hc (by have := hcl k l hget; exact fun h2 => this h2)
    · have hkl : (cancelLast s.loads).length ≤ k := Nat.le_of_not_lt hk
      rw [List.get?_append_right hkl] at hget
      have hk1 : k - (cancelLast s.loads).length = 0 := by
        cases hv : k - (cancelLast s.loads).length with
        | zero => rfl
        | succ m => rw [hv] at hget; simp at hget
      rw [hk1] at hget
      simp only [List.get?_cons_zero] at hget
      cases hget
      constructor
      · simp only [List.length_append, List.length_cons, List.length_nil]
        omega
      · rfl
  · rw [if_neg hi]
    intro k l hget hc
    exact absurd hc (fun h2 => hcl k l hget h2)

theorem goodS_stepResolve (s : SSt) (k0 : Nat) (r : Option String) (h : goodS s) :
    goodS (stepResolve s k0 r) := by
  have hmark : ∀ (s1 : SSt), s1.current = s.current → s1.loads = markRes s.loads k0 →
      goodS s1 := by
    intro s1 hc hl
    intro k l hget hcanc
    rw [hl, markRes_get? s.loads k0 k] at hget
    by_cases hk : k = k0
    · rw [if_pos hk] at hget
      cases hu : s.loads.get? k with
      | none => rw [hu] at hget; simp at hget
      | some l0 =>
        rw [hu] at hget
        simp only [Option.map_some'] at hget
        cases hget
        have := h k l0 hu (by simpa using hcanc)
        refine ⟨by rw [hl, markRes_length]; exact this.1, by rw [hc]; exact this.2⟩
    · rw [if_neg hk] at hget
      have := h k l hget hcanc
      exact ⟨by rw [hl, markRes_length]; exact this.1, by rw [hc]; exact this.2⟩
  cases hu : s.loads.get? k0 with
  | none => simp only [stepResolve, hu]; exact h
  | some l0 =>
    simp only [stepResolve, hu]
    by_cases hr : l0.resolved
    · rw [if_pos hr]; exact h
    · rw [if_neg hr]
      by_cases hc : l0.cancelled
      · rw [if_pos hc]; exact hmark _ rfl rfl
      · rw [if_neg hc]
        cases r with
        | none => exact hmark _ rfl rfl
        | some m => exact hmark _ rfl rfl

theorem goodS_runL (N : Nat) (evs : List LEv) : goodS (runL N evs) := by
  suffices h : ∀ (evs : List LEv) (s : SSt), goodS s → goodS (evs.foldl (stepL N) s) by
    refine h evs blankS ?_
    intro k l hget _
    simp [blankS] at hget
  intro evs
  induction evs with
  | nil => intro s hs; exact hs
  | cons e evs ih =>
    intro s hs
    refine ih (stepL N s e) ?_
    cases e with
    | nav i => exact goodS_stepNav N s i hs
    | res k r => exact goodS_stepResolve s k r hs

theorem stepResolve_cancelled_obs (s : SSt) (k : Nat) (r : Option String) (l : SLoad)
    (hget : s.loads.get? k = some l) (hc : l.cancelled = true) :
    obsOf (stepResolve s k r) = obsOf s := by
  simp only [stepResolve, hget]
  by_cases hr : l.resolved
  · rw [if_pos hr]
  · rw [if_neg hr, if_pos hc]
    rfl

/-- C1.  Stale-load rejection: (1) resolving a load (successfully or not)
whose tag no longer equals the current index mutates no observable state —
no displayed image, no error, no loading flag, in any reachable state; and
(2) for two overlapping loads tagged `A` then `B`, the final observable
state after both resolve is `currentIndex = B`, displayed image `B`,
`loading = false`, no error — in both resolution orders. -/
theorem C1_stale_load_rejection :
    (∀ (N : Nat) (evs : List LEv) (k : Nat) (l : SLoad) (r : Option String),
        (runL N evs).loads.get? k = some l → l.resolved = false →
        l.idx ≠ (runL N evs).current →
        obsOf (stepResolve (runL N evs) k r) = obsOf (runL N evs))
    ∧ (∀ (N A B : Nat), A < N → B < N →
        obsOf (stepResolve (stepResolve (runL N [LEv.nav A, LEv.nav B]) 0 none) 1 none)
            = (B, some B, false, none)
        ∧ obsOf (stepResolve (stepResolve (runL N [LEv.nav A, LEv.nav B]) 1 none) 0 none)
            = (B, some B, false, none)) := by
  constructor
  · intro N evs k l r hget hres hidx
    cases hc : l.cancelled with
    | false => exact absurd (goodS_runL N evs k l hget hc).2 hidx
    | true => exact stepResolve_cancelled_obs _ k r l hget hc
  · intro N A B hA hB
    have hs2 : runL N [LEv.nav A, LEv.nav B]
        = ⟨B, none, true, none, [⟨A, true, false⟩, ⟨B, false, false⟩]⟩ := by
      simp [runL, stepL, stepNav, cancelLast, blankS, hA, hB]
    rw [hs2]
    constructor
    · simp [stepResolve, markRes, obsOf, List.get?]
    · simp [stepResolve, markRes, obsOf, List.get?]

/-- Witness for C1 at `N = 2`, loads for indices `0` then `1`. -/
theorem C1_stale_load_rejection_witness :
    obsOf (stepResolve (runL 2 [LEv.nav 0, LEv.nav 1]) 0 (some "boom"))
        = obsOf (runL 2 [LEv.nav 0, LEv.nav 1])
    ∧ obsOf (stepResolve (stepResolve (runL 2 [LEv.nav 0, LEv.nav 1]) 0 none) 1 none)
        = (1, some 1, false, none) := by
  refine ⟨?_, ?_⟩
  · exact C1_stale_load_rejection.1 2 [LEv.nav 0, LEv.nav 1] 0 ⟨0, true, false⟩
      (some "boom") (by decide) rfl (by decide)
  · exact (C1_stale_load_rejection.2 2 0 1 (by omega) (by omega)).1

/-! ### C6: initializer memoization -/

theorem runInit_after_ok (os : List SetupRes) :
    runInit ⟨true, none⟩ os = (os.map fun _ => (CsRes.ok, false), ⟨true, none⟩) := by
  induction os with
  | nil => rfl
  | cons o os ih => simp [runInit, initCornerstoneM, ih]

theorem runInit_after_err (m : String) (b : Bool) (os : List SetupRes) :
    runInit ⟨b, some m⟩ os = (os.map fun _ => (CsRes.err m, false), ⟨b, some m⟩) := by
  induction os with
  | nil => rfl
  | cons o os ih => simp [runInit, initCornerstoneM, ih]

/-- C6.  Initializer memoization: from the fresh module state, a first
successful call runs the setup (`true`) and returns `ok`, and every later
call — whatever its own setup outcome would have been — returns `ok`
without running the setup; a first call that throws `m` runs the setup and
returns `err m`, and every later call returns the same `err m` without
running the setup.  The result sequence is constant after the first call:
success forever or the same failure forever. -/
theorem C6_init_memoization (os : List SetupRes) (m : String) :
    (runInit csInit (SetupRes.ok :: os)).1
        = (CsRes.ok, true) :: os.map (fun _ => (CsRes.ok, false))
    ∧ (runInit csInit (SetupRes.thr m :: os)).1
        = (CsRes.err m, true) :: os.map (fun _ => (CsRes.err m, false)) := by
  constructor
  · simp [runInit, initCornerstoneM, csInit, runInit_after_ok]
  · simp [runInit, initCornerstoneM, csInit, runInit_after_err]

/-! ### C7: confidence-tier default -/

/-- C7 counterexample.  With no supplied level-confidence mapping at all
(`levelConfidence[level]` is `undefined` for every level), every level is
presented as `Medium` — not `High` — and the low/medium-confidence
verification warning *is* shown: the absent-level default of the code is
`'medium'` (`levelConfidence[l] || 'medium'`), not `high` as claimed. -/
theorem C7_confidence_default_cex :
    hasLowConfidence (fun _ => none) = true
    ∧ badgeLabel (fun _ => none) "L1-L2" = "Medium"
    ∧ badgeLabel (fun _ => none) "L1-L2" ≠ "High" := by
  refine ⟨by decide, by decide, by decide⟩

/-- C7 amended.  A named anatomical level absent from the supplied
level-confidence mapping defaults to the `medium` tier: it is presented
with the `Medium` badge and it does contribute to the low/medium-confidence
verification warning. -/
theorem C7_confidence_default_amended (lc : String → Option String)
    (level : String) (hmem : level ∈ DISC_LEVELS) (habs : lc level = none) :
    badgeTier lc level = "medium"
    ∧ badgeLabel lc level = "Medium"
    ∧ hasLowConfidence lc = true := by
  have hconf : confOf lc level = "medium" := by simp [confOf, habs]
  have htier : badgeTier lc level = "medium" := by
    rw [badgeTier, hconf]; decide
  refine ⟨htier, ?_, ?_⟩
  · rw [badgeLabel]
    simp only [htier]
    decide
  · have : DISC_LEVELS.any (fun l => confOf lc l == "medium") = true := by
      rw [List.any_eq_true]
      exact ⟨level, hmem, by simp [hconf]⟩
    simp [hasLowConfidence, this]

/-- Witness for C7 amended: the empty mapping at level `L3-L4`. -/
theorem C7_confidence_default_amended_witness :
    badgeTier (fun _ => none) "L3-L4" = "medium"
    ∧ badgeLabel (fun _ => none) "L3-L4" = "Medium"
    ∧ hasLowConfidence (fun _ => none) = true :=
  C7_confidence_default_amended (fun _ => none) "L3-L4" (by decide) rfl

/-! ### Class-list lemmas -/

theorem getAttr_cons (pn pv n : String) (rest : List (String × String)) :
    getAttr ((pn, pv) :: rest) n = if pn = n then some pv else getAttr rest n := rfl

theorem getAttr_append_none (a : List (String × String)) (n v : String)
    (h : getAttr a n = none) : getAttr (a ++ [(n, v)]) n = some v := by
  induction a with
  | nil => simp [getAttr]
  | cons p rest ih =>
    obtain ⟨pn, pv⟩ := p
    by_cases hp : pn = n
    · exfalso
      simp [getAttr, hp] at h
    · simp only [getAttr, List.cons_append] at h ⊢
      rw [if_neg hp] at h ⊢
      exact ih h

theorem getAttr_setAttr_self (a : List (String × String)) (n w : String) :
    getAttr (setAttr a n w) n = some w := by
  induction a with
  | nil => simp [setAttr, getAttr]
  | cons p rest ih =>
    obtain ⟨pn, pv⟩ := p
    by_cases hp : pn = n
    · subst hp
      simp [setAttr, getAttr]
    · simp only [setAttr]
      rw [if_neg hp, getAttr_cons, if_neg hp]
      exact ih

theorem splitWspAux_append_space (x : List Char) :
    ∀ (acc y : List Char),
      splitWspAux acc (x ++ ' ' :: y) = splitWspAux acc x ++ splitWspAux [] y := by
  induction x with
  | nil =>
    intro acc y
    by_cases ha : acc.isEmpty <;>
      simp [splitWspAux, wsp, ha]
  | cons c x ih =>
    intro acc y
    by_cases hc : wsp c
    · by_cases ha : acc.isEmpty <;>
        simp [splitWspAux, hc, ha, ih]
    · simp [splitWspAux, hc, ih]

theorem classTokens_append_space (v w : String) :
    classTokens (v ++ " " ++ w) = classTokens v ++ classTokens w := by
  unfold classTokens
  have hd : (v ++ " " ++ w).data = v.data ++ ' ' :: w.data := by
    simp [String.data_append]
  rw [hd, splitWspAux_append_space, List.map_append]

theorem addClass_eq_none (a : List (String × String)) (cls : String)
    (hg : getAttr a "class" = none) : addClass a cls = a ++ [("class", cls)] := by
  unfold addClass
  rw [hg]

theorem addClass_eq_some (a : List (String × String)) (cls v : String)
    (hg : getAttr a "class" = some v) :
    addClass a cls =
      if (classTokens v).contains cls then a
      else setAttr a "class" (if v = "" then cls else v ++ " " ++ cls) := by
  unfold addClass
  rw [hg]

theorem hasClassA_none (a : List (String × String)) (cls : String)
    (hg : getAttr a "class" = none) : hasClassA a cls = false := by
  unfold hasClassA
  rw [hg]

theorem hasClassA_some (a : List (String × String)) (cls v : String)
    (hg : getAttr a "class" = some v) :
    hasClassA a cls = (classTokens v).contains cls := by
  unfold hasClassA
  rw [hg]

theorem hasClassA_addClass_self (a : List (String × String)) (cls : String)
    (hone : classTokens cls = [cls]) : hasClassA (addClass a cls) cls = true := by
  cases hg : getAttr a "class" with
  | none =>
    rw [addClass_eq_none a cls hg,
      hasClassA_some _ cls cls (getAttr_append_none a _ cls hg), hone]
    simp [List.contains]
  | some v =>
    rw [addClass_eq_some a cls v hg]
    by_cases hc : (classTokens v).contains cls
    · rw [if_pos hc, hasClassA_some a cls v hg]
      exact hc
    · rw [if_neg hc,
        hasClassA_some _ cls _ (getAttr_setAttr_self a "class" _)]
      by_cases hv : v = ""
      · rw [if_pos hv, hone]
        simp [List.contains]
      · rw [if_neg hv, classTokens_append_space, hone]
        simp

theorem hasClassA_addClass_other (a : List (String × String)) (cls cls' : String)
    (hne : cls' ≠ cls) (hone : classTokens cls = [cls]) :
    hasClassA (addClass a cls) cls' = hasClassA a cls' := by
  cases hg : getAttr a "class" with
  | none =>
    rw [addClass_eq_none a cls hg,
      hasClassA_some _ cls' cls (getAttr_append_none a _ cls hg),
      hasClassA_none a cls' hg, hone]
    simp [List.contains, hne]
  | some v =>
    rw [addClass_eq_some a cls v hg]
    by_cases hc : (classTokens v).contains cls
    · rw [if_pos hc]
    · rw [if_neg hc,
        hasClassA_some _ cls' _ (getAttr_setAttr_self a "class" _),
        hasClassA_some a cls' v hg]
      by_cases hv : v = ""
      · rw [if_pos hv, hone, hv]
        simp [List.contains, hne, classTokens, splitWspAux]
      · rw [if_neg hv, classTokens_append_space, hone]
        simp [hne]

theorem addClass_of_hasClass (a : List (String × String)) (cls : String)
    (h : hasClassA a cls = true) : addClass a cls = a := by
  cases hg : getAttr a "class" with
  | none => rw [hasClassA_none a cls hg] at h; simp at h
  | some v =>
    rw [hasClassA_some a cls v hg] at h
    rw [addClass_eq_some a cls v hg, if_pos h]

/-! ### C4: level-tinting classification -/

/-- C4 counterexample.  The text
`L4-L5: moderate disc bulge causing mild central canal stenosis` matches
the abnormal vocabulary (`bulge`, `stenosis`) but also the normal
vocabulary, because `mild` is one of the `NORMAL_KEYWORDS`, so the walk
tags this paragraph `report-level-normal`, not `report-level-abnormal` as
the claim states. -/
theorem C4_tinting_cex :
    abnormalTest "L4-L5: moderate disc bulge causing mild central canal stenosis" = true
    ∧ normalTest "L4-L5: moderate disc bulge causing mild central canal stenosis" = true
    ∧ hasClassN (tintN (.elem "p" []
        [.text "L4-L5: moderate disc bulge causing mild central canal stenosis"]))
        ABN_CLASS = false
    ∧ hasClassN (tintN (.elem "p" []
        [.text "L4-L5: moderate disc bulge causing mild central canal stenosis"]))
        NRM_CLASS = true :=
  ⟨by decide, by decide, by decide, by decide⟩

theorem tokens_ABN : classTokens ABN_CLASS = [ABN_CLASS] := by decide

theorem tokens_NRM : classTokens NRM_CLASS = [NRM_CLASS] := by decide

theorem tintN_elem (t : String) (a : List (String × String)) (cs : List HNode) :
    tintN (.elem t a cs) = .elem t (tintAttrs t a (trimS (tcL cs))) (tintL cs) := rfl

/-- C4 amended.  An untagged `p` or `div` element whose full trimmed text
contains a level token and is shorter than 800 characters receives the
abnormal class exactly when the abnormal vocabulary matches and the normal
vocabulary does not, and otherwise receives the normal class; an element
whose text has no level token keeps its attributes untouched (never
tagged); the example `L5-S1: disc space is normal and unremarkable` is
tagged normal — and so is
`L4-L5: moderate disc bulge causing mild central canal stenosis`, because
`mild` belongs to the normal vocabulary. -/
theorem C4_tinting_amended (t : String) (a : List (String × String)) (cs : List HNode)
    (htag : t = "p" ∨ t = "div")
    (hlvl : levelTest (trimS (tcL cs)) = true)
    (hlen : (trimS (tcL cs)).length < 800)
    (habn : hasClassA a ABN_CLASS = false) (hnrm : hasClassA a NRM_CLASS = false) :
    (hasClassN (tintN (.elem t a cs)) ABN_CLASS = true ↔
      (abnormalTest (trimS (tcL cs)) = true ∧ normalTest (trimS (tcL cs)) = false))
    ∧ (hasClassN (tintN (.elem t a cs)) NRM_CLASS = true ↔
      ¬ (abnormalTest (trimS (tcL cs)) = true ∧ normalTest (trimS (tcL cs)) = false))
    ∧ (∀ (t2 : String) (a2 : List (String × String)) (cs2 : List HNode),
        levelTest (trimS (tcL cs2)) = false →
        tintN (.elem t2 a2 cs2) = .elem t2 a2 (tintL cs2))
    ∧ hasClassN (tintN (.elem "p" []
        [.text "L5-S1: disc space is normal and unremarkable"])) NRM_CLASS = true := by
  have hcond : ((t = "p" || t = "div") && levelTest (trimS (tcL cs))
      && decide ((trimS (tcL cs)).length < 800)) = true := by
    rcases htag with h | h <;> simp [h, hlvl, hlen]
  have hNA : NRM_CLASS ≠ ABN_CLASS := by decide
  have hAN : ABN_CLASS ≠ NRM_CLASS := by decide
  refine ⟨?_, ?_, ?_, by decide⟩
  · rw [tintN_elem]
    show hasClassA (tintAttrs t a (trimS (tcL cs))) ABN_CLASS = true ↔ _
    unfold tintAttrs
    rw [if_pos hcond]
    by_cases hb : abnormalTest (trimS (tcL cs)) && !normalTest (trimS (tcL cs))
    · rw [if_pos hb, hasClassA_addClass_self a ABN_CLASS tokens_ABN]
      simp only [Bool.and_eq_true, Bool.not_eq_true'] at hb
      simp [hb]
    · rw [if_neg hb]
      have hb2 : (normalTest (trimS (tcL cs)) || !abnormalTest (trimS (tcL cs))) = true := by
        cases habn2 : abnormalTest (trimS (tcL cs)) <;>
          cases hnrm2 : normalTest (trimS (tcL cs)) <;> simp_all
      rw [if_pos hb2, hasClassA_addClass_other a NRM_CLASS ABN_CLASS hAN tokens_NRM, habn]
      simp only [Bool.false_eq_true, false_iff]
      intro hcontra
      exact hb (by simp [hcontra.1, hcontra.2])
  · rw [tintN_elem]
    show hasClassA (tintAttrs t a (trimS (tcL cs))) NRM_CLASS = true ↔ _
    unfold tintAttrs
    rw [if_pos hcond]
    by_cases hb : abnormalTest (trimS (tcL cs)) && !normalTest (trimS (tcL cs))
    · rw [if_pos hb, hasClassA_addClass_other a ABN_CLASS NRM_CLASS hNA tokens_ABN, hnrm]
      simp only [Bool.and_eq_true, Bool.not_eq_true'] at hb
      simp [hb]
    · rw [if_neg hb]
      have hb2 : (normalTest (trimS (tcL cs)) || !abnormalTest (trimS (tcL cs))) = true := by
        cases habn2 : abnormalTest (trimS (tcL cs)) <;>
          cases hnrm2 : normalTest (trimS (tcL cs)) <;> simp_all
      rw [if_pos hb2, hasClassA_addClass_self a NRM_CLASS tokens_NRM]
      simp only [eq_self_iff_true, true_iff]
      intro hcontra
      exact hb (by simp [hcontra.1, hcontra.2])
  · intro t2 a2 cs2 hno
    rw [tintN_elem]
    unfold tintAttrs
    rw [if_neg (by simp [hno])]

/-- Witness for C4 amended: a paragraph with only abnormal keywords. -/
theorem C4_tinting_amended_witness :
    (hasClassN (tintN (.elem "p" [] [.text "L4-L5: disc bulge"])) ABN_CLASS = true ↔
      (abnormalTest (trimS (tcL [.text "L4-L5: disc bulge"])) = true
        ∧ normalTest (trimS (tcL [.text "L4-L5: disc bulge"])) = false))
    ∧ (hasClassN (tintN (.elem "p" [] [.text "L4-L5: disc bulge"])) NRM_CLASS = true ↔
      ¬ (abnormalTest (trimS (tcL [.text "L4-L5: disc bulge"])) = true
        ∧ normalTest (trimS (tcL [.text "L4-L5: disc bulge"])) = false))
    ∧ (∀ (t2 : String) (a2 : List (String × String)) (cs2 : List HNode),
        levelTest (trimS (tcL cs2)) = false →
        tintN (.elem t2 a2 cs2) = .elem t2 a2 (tintL cs2))
    ∧ hasClassN (tintN (.elem "p" []
        [.text "L5-S1: disc space is normal and unremarkable"])) NRM_CLASS = true :=
  C4_tinting_amended "p" [] [.text "L4-L5: disc bulge"] (Or.inl rfl)
    (by decide) (by decide) (by decide) (by decide)

/-! ### C10: text preservation of `enhanceReportHtml` -/

theorem tcL_append (x y : List HNode) : tcL (x ++ y) = tcL x ++ tcL y := by
  induction x with
  | nil => simp [tcL]
  | cons n ns ih =>
    show tcN n ++ tcL (ns ++ y) = tcN n ++ tcL ns ++ tcL y
    rw [ih, String.append_assoc]

mutual
theorem tcN_tintN : ∀ n : HNode, tcN (tintN n) = tcN n
  | .text _ => rfl
  | .elem t a cs => by
    show tcL (tintL cs) = tcL cs
    exact tcL_tintL cs
theorem tcL_tintL : ∀ l : List HNode, tcL (tintL l) = tcL l
  | [] => rfl
  | n :: ns => by
    show tcN (tintN n) ++ tcL (tintL ns) = tcN n ++ tcL ns
    rw [tcN_tintN n, tcL_tintL ns]
end

theorem tcL_closeAcc (acc : Option (String × List HNode × List HNode))
    (h : ∀ cls buf strays, acc = some (cls, buf, strays) → strays = []) :
    tcL (closeAcc acc) = accText acc := by
  cases acc with
  | none => rfl
  | some trip =>
    obtain ⟨cls, buf, strays⟩ := trip
    have hs := h cls buf strays rfl
    subst hs
    show tcL buf ++ "" = tcL buf ++ tcL []
    rfl

theorem tcL_groupAux : ∀ (l : List HNode)
    (acc : Option (String × List HNode × List HNode)),
    topStray l = false →
    (∀ cls buf strays, acc = some (cls, buf, strays) →
      strays = [] ∧ hasStrayBefore l = false) →
    tcL (groupAux acc l) = accText acc ++ tcL l := by
  intro l
  induction l with
  | nil =>
    intro acc _ hacc
    show tcL (closeAcc acc) = accText acc ++ ""
    rw [String.append_empty]
    exact tcL_closeAcc acc (fun cls buf strays he => (hacc cls buf strays he).1)
  | cons n rest ih =>
    intro acc htop hacc
    have htopr : topStray rest = false := by
      have h0 : (((wrapClassOf n).isSome && hasStrayBefore rest)
          || topStray rest) = false := htop
      simp only [Bool.or_eq_false_iff] at h0
      exact h0.2
    by_cases hh2 : isH2 n
    · cases hwc : wrapClassOf n with
      | some cls2 =>
        have hsb : hasStrayBefore rest = false := by
          have h0 : (((wrapClassOf n).isSome && hasStrayBefore rest)
              || topStray rest) = false := htop
          simp only [Bool.or_eq_false_iff, Bool.and_eq_false_iff] at h0
          rcases h0.1 with h1 | h1
          · rw [hwc] at h1; simp at h1
          · exact h1
        have hout : groupAux acc (n :: rest)
            = closeAcc acc ++ groupAux (some (cls2, [n], [])) rest := by
          simp only [groupAux, hh2, hwc]
          rw [if_pos trivial]
        rw [hout, tcL_append,
          tcL_closeAcc acc (fun c b s he => (hacc c b s he).1),
          ih (some (cls2, [n], [])) htopr
            (fun c b s he => by cases he; exact ⟨rfl, hsb⟩)]
        show accText acc ++ ((tcN n ++ "") ++ "" ++ tcL rest)
            = accText acc ++ (tcN n ++ tcL rest)
        rw [String.append_empty, String.append_empty]
      | none =>
        have hout : groupAux acc (n :: rest)
            = closeAcc acc ++ n :: groupAux none rest := by
          simp only [groupAux, hh2, hwc]
          rw [if_pos trivial]
        rw [hout, tcL_append,
          tcL_closeAcc acc (fun c b s he => (hacc c b s he).1)]
        show accText acc ++ (tcN n ++ tcL (groupAux none rest))
            = accText acc ++ (tcN n ++ tcL rest)
        rw [ih none htopr (by intro c b s he; cases he)]
        simp only [accText]
        rw [String.empty_append]
    · cases hak : acc with
      | none =>
        have hout : groupAux none (n :: rest) = n :: groupAux none rest := by
          simp only [groupAux, hh2]
          rw [if_neg (by simp [hh2])]
        rw [hout]
        show tcN n ++ tcL (groupAux none rest) = accText none ++ (tcN n ++ tcL rest)
        rw [ih none htopr (by intro c b s he; cases he)]
        simp only [accText]
        rw [String.empty_append, String.empty_append]
      | some trip =>
        obtain ⟨cls, buf, strays⟩ := trip
        have hacc' := hacc cls buf strays hak
        have hstrays : strays = [] := hacc'.1
        subst hstrays
        cases n with
        | text s =>
          exfalso
          have : hasStrayBefore (HNode.text s :: rest) = true := rfl
          rw [hacc'.2] at this
          exact Bool.false_ne_true this
        | elem t a cs =>
          have hsb : hasStrayBefore rest = false := by
            have h2 := hacc'.2
            have ht : t ≠ "h2" := by
              intro he
              exact hh2 (by simp [isH2, he])
            show _ = false
            rw [show hasStrayBefore (HNode.elem t a cs :: rest)
                = hasStrayBefore rest from by simp [hasStrayBefore, ht]] at h2
            exact h2
          have hout : groupAux (some (cls, buf, [])) (HNode.elem t a cs :: rest)
              = groupAux (some (cls, buf ++ [HNode.elem t a cs], [])) rest := by
            simp only [groupAux, hh2]
            rw [if_neg (by simp [hh2])]
          rw [hout,
            ih (some (cls, buf ++ [HNode.elem t a cs], [])) htopr
              (fun c b s he => by cases he; exact ⟨rfl, hsb⟩)]
          simp only [accText, tcL_append, tcL, String.append_empty,
            String.append_assoc]

theorem isH2_wrapN (n : HNode) : isH2 (wrapN n) = isH2 n := by
  cases n <;> rfl

theorem hasStrayBefore_wrapList : ∀ l : List HNode,
    hasStrayBefore (wrapList l) = hasStrayBefore l
  | [] => rfl
  | .text s :: rest => rfl
  | .elem t a cs :: rest => by
    show (if t = "h2" then false else hasStrayBefore (wrapList rest))
        = (if t = "h2" then false else hasStrayBefore rest)
    rw [hasStrayBefore_wrapList rest]

mutual
theorem wrapN_pres : ∀ n : HNode, strayN n = false →
    tcN (wrapN n) = tcN n ∧ wrapClassOf (wrapN n) = wrapClassOf n
  | .text _ => fun _ => ⟨rfl, rfl⟩
  | .elem t a cs => fun h => by
    have h0 : (topStray cs || strayL cs) = false := h
    simp only [Bool.or_eq_false_iff] at h0
    have hl := wrapList_pres cs h0.2
    have htext : tcL (groupAux none (wrapList cs)) = tcL cs := by
      rw [tcL_groupAux (wrapList cs) none (by rw [hl.2]; exact h0.1)
        (by intro c b s he; cases he)]
      simp only [accText]
      rw [String.empty_append, hl.1]
    constructor
    · show tcL (groupAux none (wrapList cs)) = tcL cs
      exact htext
    · show wrapClassOf (.elem t a (groupAux none (wrapList cs)))
          = wrapClassOf (.elem t a cs)
      simp only [wrapClassOf]
      rw [htext]
theorem wrapList_pres : ∀ l : List HNode, strayL l = false →
    tcL (wrapList l) = tcL l ∧ topStray (wrapList l) = topStray l
  | [] => fun _ => ⟨rfl, rfl⟩
  | n :: rest => fun h => by
    have h0 : (strayN n || strayL rest) = false := h
    simp only [Bool.or_eq_false_iff] at h0
    have hn := wrapN_pres n h0.1
    have hr := wrapList_pres rest h0.2
    constructor
    · show tcN (wrapN n) ++ tcL (wrapList rest) = tcN n ++ tcL rest
      rw [hn.1, hr.1]
    · show (((wrapClassOf (wrapN n)).isSome && hasStrayBefore (wrapList rest))
          || topStray (wrapList rest))
          = (((wrapClassOf n).isSome && hasStrayBefore rest) || topStray rest)
      rw [hn.2, hr.2, hasStrayBefore_wrapList rest]
end

theorem tcL_enhanceL (l : List HNode) (h : strayDoc l = false) :
    tcL (enhanceL l) = tcL l := by
  have h0 : (topStray l || strayL l) = false := h
  simp only [Bool.or_eq_false_iff] at h0
  have hl := wrapList_pres l h0.2
  show tcL (tintL (groupAux none (wrapList l))) = tcL l
  rw [tcL_tintL,
    tcL_groupAux (wrapList l) none (by rw [hl.2]; exact h0.1)
      (by intro c b s he; cases he)]
  simp only [accText]
  rw [String.empty_append, hl.1]

/-- C10 counterexample.  Section wrapping moves only *element* siblings
into the section container; a bare text node between them is left behind
after the container, so the document's concatenated text is reordered: for
`<h2>FINDINGS</h2>` followed by the text node `hello` and `<p>world</p>`,
the output text is `FINDINGSworldhello`, not the input's
`FINDINGShelloworld`. -/
theorem C10_text_preservation_cex :
    tcL (enhanceL [HNode.elem "h2" [] [.text "FINDINGS"], .text "hello",
        .elem "p" [] [.text "world"]]) = "FINDINGSworldhello"
    ∧ tcL [HNode.elem "h2" [] [.text "FINDINGS"], .text "hello",
        .elem "p" [] [.text "world"]] = "FINDINGShelloworld"
    ∧ tcL (enhanceL [HNode.elem "h2" [] [.text "FINDINGS"], .text "hello",
        .elem "p" [] [.text "world"]])
      ≠ tcL [HNode.elem "h2" [] [.text "FINDINGS"], .text "hello",
        .elem "p" [] [.text "world"]] :=
  ⟨by decide, by decide, by decide⟩

/-- C10 amended.  The structurer only inserts wrapper `div` elements,
moves existing nodes and adds classes — it never edits the text of any
node — and the concatenated document text is preserved whenever no bare
text node lies among the element siblings a classified heading's wrapper
collects; a stray text node in that range is moved after the wrapper,
reordering (but not altering or deleting) the text.  The tinting pass
preserves the concatenated text unconditionally. -/
theorem C10_text_preservation_amended (l : List HNode) (h : strayDoc l = false) :
    tcL (enhanceL l) = tcL l
    ∧ (∀ l2 : List HNode, tcL (tintL l2) = tcL l2) :=
  ⟨tcL_enhanceL l h, tcL_tintL⟩

/-- Witness for C10 amended on a stray-free document. -/
theorem C10_text_preservation_amended_witness :
    tcL (enhanceL [HNode.elem "h2" [] [.text "FINDINGS"],
        .elem "p" [] [.text "world"]])
      = tcL [HNode.elem "h2" [] [.text "FINDINGS"], .elem "p" [] [.text "world"]]
    ∧ (∀ l2 : List HNode, tcL (tintL l2) = tcL l2) :=
  C10_text_preservation_amended
    [HNode.elem "h2" [] [.text "FINDINGS"], .elem "p" [] [.text "world"]]
    (by decide)

/-! ### C3: idempotence of the structurer -/

theorem tint_else_branch (txt : String)
    (hb : ¬(abnormalTest txt && !normalTest txt) = true) :
    (normalTest txt || !abnormalTest txt) = true := by
  cases h1 : abnormalTest txt <;> cases h2 : normalTest txt <;> simp_all

theorem tintAttrs_idem (t : String) (a : List (String × String)) (txt : String) :
    tintAttrs t (tintAttrs t a txt) txt = tintAttrs t a txt := by
  unfold tintAttrs
  by_cases hcond : ((t = "p" || t = "div") && levelTest txt
      && decide (txt.length < 800)) = true
  · rw [if_pos hcond, if_pos hcond]
    by_cases hb : (abnormalTest txt && !normalTest txt) = true
    · rw [if_pos hb, if_pos hb]
      exact addClass_of_hasClass _ _ (hasClassA_addClass_self a ABN_CLASS tokens_ABN)
    · rw [if_neg hb, if_neg hb, if_pos (tint_else_branch txt hb),
        if_pos (tint_else_branch txt hb)]
      exact addClass_of_hasClass _ _ (hasClassA_addClass_self a NRM_CLASS tokens_NRM)
  · rw [if_neg hcond, if_neg hcond]

mutual
theorem tintN_idem : ∀ n : HNode, tintN (tintN n) = tintN n
  | .text _ => rfl
  | .elem t a cs => by
    show HNode.elem t
        (tintAttrs t (tintAttrs t a (trimS (tcL cs))) (trimS (tcL (tintL cs))))
        (tintL (tintL cs))
      = HNode.elem t (tintAttrs t a (trimS (tcL cs))) (tintL cs)
    rw [tcL_tintL cs, tintAttrs_idem, tintL_idem cs]
theorem tintL_idem : ∀ l : List HNode, tintL (tintL l) = tintL l
  | [] => rfl
  | n :: ns => by
    show tintN (tintN n) :: tintL (tintL ns) = tintN n :: tintL ns
    rw [tintN_idem n, tintL_idem ns]
end

theorem wrapClassOf_tintN (n : HNode) : wrapClassOf (tintN n) = wrapClassOf n := by
  cases n with
  | text s => rfl
  | elem t a cs =>
    show wrapClassOf (.elem t (tintAttrs t a (trimS (tcL cs))) (tintL cs))
        = wrapClassOf (.elem t a cs)
    simp only [wrapClassOf]
    rw [tcL_tintL cs]

mutual
theorem secH2N_tintN : ∀ n : HNode, secH2N (tintN n) = secH2N n
  | .text _ => rfl
  | .elem t a cs => by
    show ((wrapClassOf (.elem t (tintAttrs t a (trimS (tcL cs))) (tintL cs))).isSome
          || secH2L (tintL cs))
        = ((wrapClassOf (.elem t a cs)).isSome || secH2L cs)
    rw [secH2L_tintL cs,
      show wrapClassOf (.elem t (tintAttrs t a (trimS (tcL cs))) (tintL cs))
          = wrapClassOf (.elem t a cs) from wrapClassOf_tintN (.elem t a cs)]
theorem secH2L_tintL : ∀ l : List HNode, secH2L (tintL l) = secH2L l
  | [] => rfl
  | n :: ns => by
    show (secH2N (tintN n) || secH2L (tintL ns)) = (secH2N n || secH2L ns)
    rw [secH2N_tintN n, secH2L_tintL ns]
end

theorem secH2L_mem : ∀ (l : List HNode), secH2L l = false →
    ∀ n ∈ l, secH2N n = false := by
  intro l
  induction l with
  | nil => intro _ n hn; cases hn
  | cons m rest ih =>
    intro h n hn
    have h0 : (secH2N m || secH2L rest) = false := h
    simp only [Bool.or_eq_false_iff] at h0
    rcases List.mem_cons.mp hn with he | he
    · rw [he]; exact h0.1
    · exact ih h0.2 n he

theorem wrapClassOf_none_of_secH2N (n : HNode) (h : secH2N n = false) :
    wrapClassOf n = none := by
  cases n with
  | text s => rfl
  | elem t a cs =>
    have h0 : ((wrapClassOf (.elem t a cs)).isSome || secH2L cs) = false := h
    simp only [Bool.or_eq_false_iff] at h0
    cases hw : wrapClassOf (.elem t a cs) with
    | none => rfl
    | some cls => rw [hw] at h0; simp at h0

theorem groupAux_none_id : ∀ (l : List HNode),
    (∀ n ∈ l, wrapClassOf n = none) → groupAux none l = l := by
  intro l
  induction l with
  | nil => intro _; rfl
  | cons n rest ih =>
    intro h
    have hn := h n (List.mem_cons_self n rest)
    have hrest := fun m hm => h m (List.mem_cons_of_mem n hm)
    by_cases hh2 : isH2 n
    · have hout : groupAux none (n :: rest)
          = closeAcc none ++ n :: groupAux none rest := by
        simp only [groupAux, hh2, hn]
        rw [if_pos trivial]
      rw [hout]
      show n :: groupAux none rest = n :: rest
      rw [ih hrest]
    · have hout : groupAux none (n :: rest) = n :: groupAux none rest := by
        simp only [groupAux]
        rw [if_neg (by simp [hh2])]
      rw [hout, ih hrest]

mutual
theorem wrapN_id : ∀ n : HNode, secH2N n = false → wrapN n = n
  | .text _ => fun _ => rfl
  | .elem t a cs => fun h => by
    have h0 : ((wrapClassOf (.elem t a cs)).isSome || secH2L cs) = false := h
    simp only [Bool.or_eq_false_iff] at h0
    show HNode.elem t a (groupAux none (wrapList cs)) = .elem t a cs
    rw [wrapList_id cs h0.2, groupAux_none_id cs
      (fun m hm => wrapClassOf_none_of_secH2N m (secH2L_mem cs h0.2 m hm))]
theorem wrapList_id : ∀ l : List HNode, secH2L l = false → wrapList l = l
  | [] => fun _ => rfl
  | n :: ns => fun h => by
    have h0 : (secH2N n || secH2L ns) = false := h
    simp only [Bool.or_eq_false_iff] at h0
    show wrapN n :: wrapList ns = n :: ns
    rw [wrapN_id n h0.1, wrapList_id ns h0.2]
end

theorem wrapAll_id (l : List HNode) (h : secH2L l = false) : wrapAll l = l := by
  show groupAux none (wrapList l) = l
  rw [wrapList_id l h, groupAux_none_id l
    (fun m hm => wrapClassOf_none_of_secH2N m (secH2L_mem l h m hm))]

/-- C3 counterexample.  `enhanceReportHtml` is not idempotent: there is no
guard against headings that already sit inside a section container, so a
second invocation wraps the classified `h2` again, nesting a second
`report-section-findings` container inside the first. -/
theorem C3_annotate_not_idempotent_cex :
    enhanceReportHtmlM (enhanceReportHtmlM "<h2>FINDINGS</h2><p>x</p>")
      ≠ enhanceReportHtmlM "<h2>FINDINGS</h2><p>x</p>"
    ∧ enhanceReportHtmlM "<h2>FINDINGS</h2><p>x</p>"
      = "<div class=\"report-section-findings\"><h2>FINDINGS</h2><p>x</p></div>"
    ∧ enhanceReportHtmlM (enhanceReportHtmlM "<h2>FINDINGS</h2><p>x</p>")
      = "<div class=\"report-section-findings\"><div class=\"report-section-findings\"><h2>FINDINGS</h2><p>x</p></div></div>" :=
  ⟨by decide, by decide, by decide⟩

/-- C3 amended.  The structurer is idempotent exactly on documents with no
heading it classifies: when the document contains no `h2` whose text
matches FINDINGS/FINDING/IMPRESSION/CONCLUSION, a second invocation is a
no-op (section wrapping finds nothing and the tinting pass re-adds only
classes that are already present); on documents with a classified heading
a second invocation double-wraps the section container. -/
theorem C3_annotate_idempotent_amended (l : List HNode) (h : secH2L l = false) :
    enhanceL (enhanceL l) = enhanceL l := by
  have h1 : enhanceL l = tintL l := by
    show tintL (wrapAll l) = tintL l
    rw [wrapAll_id l h]
  rw [h1]
  have h2 : secH2L (tintL l) = false := by rw [secH2L_tintL l]; exact h
  show tintL (wrapAll (tintL l)) = tintL l
  rw [wrapAll_id (tintL l) h2, tintL_idem l]

/-- Witness for C3 amended on a document without section headings. -/
theorem C3_annotate_idempotent_amended_witness :
    enhanceL (enhanceL [HNode.elem "p" [] [.text "hello"]])
      = enhanceL [HNode.elem "p" [] [.text "hello"]] :=
  C3_annotate_idempotent_amended [HNode.elem "p" [] [.text "hello"]] (by decide)

/-! ### C2: sanitizer safety -/

theorem okTagsL_cons (n : HNode) (ns : List HNode) :
    okTagsL (n :: ns) = (okTagsN n && okTagsL ns) := rfl

theorem okTagsN_elem (t : String) (a : List (String × String)) (cs : List HNode) :
    okTagsN (.elem t a cs)
      = (ALLOWED_TAGS.contains t && a.all (fun p => p.1 == "class")
          && okTagsL cs) := rfl

theorem okTagsL_append : ∀ x y : List HNode,
    okTagsL (x ++ y) = (okTagsL x && okTagsL y) := by
  intro x y
  induction x with
  | nil => simp [okTagsL]
  | cons n ns ih =>
    show (okTagsN n && okTagsL (ns ++ y)) = ((okTagsN n && okTagsL ns) && okTagsL y)
    rw [ih, Bool.and_assoc]

theorem all_filter_class (a : List (String × String)) :
    (a.filter fun p => p.1 == "class").all (fun p => p.1 == "class") = true := by
  induction a with
  | nil => rfl
  | cons p rest ih =>
    by_cases hp : (p.1 == "class") = true
    · simp [List.filter, List.all, hp, ih]
    · simp only [List.filter]
      rw [Bool.eq_false_iff.mpr (fun h2 => hp h2)]
      exact ih

mutual
theorem okTags_sanN : ∀ n : HNode, okTagsL (sanN n) = true
  | .text _ => rfl
  | .elem t a cs => by
    by_cases ht : ALLOWED_TAGS.contains t = true
    · have hout : sanN (.elem t a cs)
          = [.elem t (a.filter fun p => p.1 == "class") (sanL cs)] := by
        simp only [sanN]
        rw [if_pos ht]
      rw [hout, okTagsL_cons, okTagsN_elem, ht, okTags_sanL cs, all_filter_class]
      rfl
    · by_cases hf : FORBID_CONTENTS.contains t = true
      · have hout : sanN (.elem t a cs) = [] := by
          simp only [sanN]
          rw [if_neg ht, if_pos hf]
        rw [hout]
        rfl
      · have hout : sanN (.elem t a cs) = sanL cs := by
          simp only [sanN]
          rw [if_neg ht, if_neg hf]
        rw [hout]
        exact okTags_sanL cs
theorem okTags_sanL : ∀ l : List HNode, okTagsL (sanL l) = true
  | [] => rfl
  | n :: ns => by
    show okTagsL (sanN n ++ sanL ns) = true
    rw [okTagsL_append, okTags_sanN n, okTags_sanL ns]
    rfl
end

theorem all_class_setAttr (a : List (String × String)) (v : String)
    (h : a.all (fun p => p.1 == "class") = true) :
    (setAttr a "class" v).all (fun p => p.1 == "class") = true := by
  induction a with
  | nil => simp [setAttr]
  | cons p rest ih =>
    obtain ⟨pn, pv⟩ := p
    simp only [List.all_cons, Bool.and_eq_true] at h
    by_cases hp : pn = "class"
    · simp [setAttr, hp, h.2]
    · exact absurd (by simpa using h.1) hp

theorem all_class_addClass (a : List (String × String)) (cls : String)
    (h : a.all (fun p => p.1 == "class") = true) :
    (addClass a cls).all (fun p => p.1 == "class") = true := by
  cases hg : getAttr a "class" with
  | none =>
    rw [addClass_eq_none a cls hg, List.all_append, h]
    rfl
  | some v =>
    rw [addClass_eq_some a cls v hg]
    by_cases hc : (classTokens v).contains cls
    · rw [if_pos hc]; exact h
    · rw [if_neg hc]; exact all_class_setAttr a _ h

theorem all_class_tintAttrs (t : String) (a : List (String × String)) (txt : String)
    (h : a.all (fun p => p.1 == "class") = true) :
    (tintAttrs t a txt).all (fun p => p.1 == "class") = true := by
  unfold tintAttrs
  split
  · split
    · exact all_class_addClass a ABN_CLASS h
    · split
      · exact all_class_addClass a NRM_CLASS h
      · exact h
  · exact h

mutual
theorem okTags_tintN : ∀ n : HNode, okTagsN n = true → okTagsN (tintN n) = true
  | .text _ => fun h => h
  | .elem t a cs => fun h => by
    rw [okTagsN_elem] at h
    simp only [Bool.and_eq_true] at h
    show okTagsN (.elem t (tintAttrs t a (trimS (tcL cs))) (tintL cs)) = true
    rw [okTagsN_elem]
    simp only [Bool.and_eq_true]
    exact ⟨⟨h.1.1, all_class_tintAttrs t a _ h.1.2⟩, okTags_tintL cs h.2⟩
theorem okTags_tintL : ∀ l : List HNode, okTagsL l = true → okTagsL (tintL l) = true
  | [] => fun h => h
  | n :: ns => fun h => by
    rw [okTagsL_cons] at h
    simp only [Bool.and_eq_true] at h
    show okTagsL (tintN n :: tintL ns) = true
    rw [okTagsL_cons]
    simp only [Bool.and_eq_true]
    exact ⟨okTags_tintN n h.1, okTags_tintL ns h.2⟩
end

/-- The invariant carried for an open section accumulator. -/
def accOk : Option (String × List HNode × List HNode) → Prop
  | none => True
  | some (_, buf, strays) => okTagsL buf = true ∧ okTagsL strays = true

theorem okTags_closeAcc (acc : Option (String × List HNode × List HNode))
    (h : accOk acc) : okTagsL (closeAcc acc) = true := by
  cases acc with
  | none => rfl
  | some trip =>
    obtain ⟨cls, buf, strays⟩ := trip
    obtain ⟨hb, hs⟩ := h
    show okTagsL (HNode.elem "div" [("class", cls)] buf :: strays) = true
    rw [okTagsL_cons, okTagsN_elem, hb, hs]
    rfl

theorem okTags_groupAux : ∀ (l : List HNode)
    (acc : Option (String × List HNode × List HNode)),
    okTagsL l = true → accOk acc → okTagsL (groupAux acc l) = true := by
  intro l
  induction l with
  | nil =>
    intro acc _ hacc
    exact okTags_closeAcc acc hacc
  | cons n rest ih =>
    intro acc hl hacc
    rw [okTagsL_cons] at hl
    simp only [Bool.and_eq_true] at hl
    by_cases hh2 : isH2 n
    · cases hwc : wrapClassOf n with
      | some cls2 =>
        have hout : groupAux acc (n :: rest)
            = closeAcc acc ++ groupAux (some (cls2, [n], [])) rest := by
          simp only [groupAux, hh2, hwc]
          rw [if_pos trivial]
        rw [hout, okTagsL_append, okTags_closeAcc acc hacc,
          ih (some (cls2, [n], [])) hl.2
            ⟨by rw [okTagsL_cons, hl.1]; rfl, rfl⟩]
        rfl
      | none =>
        have hout : groupAux acc (n :: rest)
            = closeAcc acc ++ n :: groupAux none rest := by
          simp only [groupAux, hh2, hwc]
          rw [if_pos trivial]
        rw [hout, okTagsL_append, okTags_closeAcc acc hacc, okTagsL_cons,
          hl.1, ih none hl.2 trivial]
        rfl
    · cases hak : acc with
      | none =>
        have hout : groupAux none (n :: rest) = n :: groupAux none rest := by
          simp only [groupAux]
          rw [if_neg (by simp [hh2])]
        rw [hout, okTagsL_cons, hl.1, ih none hl.2 trivial]
        rfl
      | some trip =>
        obtain ⟨cls, buf, strays⟩ := trip
        rw [hak] at hacc
        obtain ⟨hb, hs⟩ := hacc
        cases n with
        | elem t a cs =>
          have hout : groupAux (some (cls, buf, strays)) (HNode.elem t a cs :: rest)
              = groupAux (some (cls, buf ++ [HNode.elem t a cs], strays)) rest := by
            simp only [groupAux, hh2]
            rw [if_neg (by simp [hh2])]
          rw [hout]
          refine ih _ hl.2 ⟨?_, hs⟩
          rw [okTagsL_append, hb, okTagsL_cons, hl.1]
          rfl
        | text s =>
          have hout : groupAux (some (cls, buf, strays)) (HNode.text s :: rest)
              = groupAux (some (cls, buf, strays ++ [HNode.text s])) rest := by
            simp only [groupAux, hh2]
            rw [if_neg (by simp [hh2])]
          rw [hout]
          refine ih _ hl.2 ⟨hb, ?_⟩
          rw [okTagsL_append, hs]
          rfl

mutual
theorem okTags_wrapN : ∀ n : HNode, okTagsN n = true → okTagsN (wrapN n) = true
  | .text _ => fun h => h
  | .elem t a cs => fun h => by
    rw [okTagsN_elem] at h
    simp only [Bool.and_eq_true] at h
    show okTagsN (.elem t a (groupAux none (wrapList cs))) = true
    rw [okTagsN_elem]
    simp only [Bool.and_eq_true]
    exact ⟨h.1, okTags_groupAux (wrapList cs) none (okTags_wrapList cs h.2) trivial⟩
theorem okTags_wrapList : ∀ l : List HNode, okTagsL l = true → okTagsL (wrapList l) = true
  | [] => fun h => h
  | n :: ns => fun h => by
    rw [okTagsL_cons] at h
    simp only [Bool.and_eq_true] at h
    show okTagsL (wrapN n :: wrapList ns) = true
    rw [okTagsL_cons]
    simp only [Bool.and_eq_true]
    exact ⟨okTags_wrapN n h.1, okTags_wrapList ns h.2⟩
end

theorem okTags_enhanceL (l : List HNode) (h : okTagsL l = true) :
    okTagsL (enhanceL l) = true := by
  show okTagsL (tintL (groupAux none (wrapList l))) = true
  exact okTags_tintL _ (okTags_groupAux (wrapList l) none (okTags_wrapList l h) trivial)

/-- C2.  Sanitizer safety: whatever raw string reaches the sanitizer (the
trimmed HTML input, or `marked`'s output for markdown input), every
element of the sanitized tree — and of the tree after the structurer's
annotation — carries a tag from the configured allow-list and no attribute
other than `class`; on the scenario input
`<script>alert(1)</script><p>ok</p>`, both `markdownToHtmlAsync` and the
`saveEdit` commit produce exactly `<p>ok</p>`: no script tag survives and
`<p>ok</p>` is preserved. -/
theorem C2_sanitizer_safety :
    (∀ raw : String, okTagsL (sanL (parseBody raw)) = true
      ∧ okTagsL (toSafeTreeM raw) = true)
    ∧ toSafeHtmlRawM "<script>alert(1)</script><p>ok</p>" = "<p>ok</p>"
    ∧ saveEditM "<script>alert(1)</script><p>ok</p>" = "<p>ok</p>"
    ∧ hasSubStr "script" (toSafeHtmlRawM "<script>alert(1)</script><p>ok</p>") = false
    ∧ hasSubStr "<p>ok</p>" (toSafeHtmlRawM "<script>alert(1)</script><p>ok</p>") = true := by
  refine ⟨?_, by decide, by decide, by decide, by decide⟩
  intro raw
  refine ⟨okTags_sanL (parseBody raw), ?_⟩
  show okTagsL (enhanceL (sanL (parseBody raw))) = true
  exact okTags_enhanceL _ (okTags_sanL (parseBody raw))

/-! ### C9: idempotence of `htmlToPlainText`

The proof characterizes the output of the pipeline: it satisfies `pTag`
(every `<` is directly followed by `>` or has no `>` anywhere after it,
so neither tag-replacement stage can match again), contains no `&nbsp;`,
no tab, no two adjacent spaces, no space adjacent to a newline, no run of
three newlines, and is trimmed.  Each stage is then the identity on such
a string. -/

def nbspL : List Char := ['&', 'n', 'b', 's', 'p', ';']

/-- After tag stripping: a surviving `<` is immediately followed by `>`
(the one-character class cannot match `<>`) or has no `>` anywhere to its
right (the regex never finds a closer). -/
def pTag : List Char → Prop
  | [] => True
  | c :: rest => (c = '<' → rest.head? = some '>' ∨ '>' ∉ rest) ∧ pTag rest

theorem startsL_cons2 (a b : Char) (w l : List Char) :
    startsL (a :: w) (b :: l) = (a = b && startsL w l) := rfl

theorem hasSubL_cons (w : List Char) (c : Char) (rest : List Char) :
    hasSubL w (c :: rest) = (startsL w (c :: rest) || hasSubL w rest) := rfl

theorem noSub_tail {w : List Char} {c : Char} {rest : List Char}
    (h : hasSubL w (c :: rest) = false) : hasSubL w rest = false := by
  rw [hasSubL_cons] at h
  simp only [Bool.or_eq_false_iff] at h
  exact h.2

theorem noSub_starts {w : List Char} {c : Char} {rest : List Char}
    (h : hasSubL w (c :: rest) = false) : startsL w (c :: rest) = false := by
  rw [hasSubL_cons] at h
  simp only [Bool.or_eq_false_iff] at h
  exact h.1

theorem hasSub_lift (w : List Char) (c : Char) (rest : List Char)
    (h : hasSubL w rest = true) : hasSubL w (c :: rest) = true := by
  rw [hasSubL_cons, h]
  simp

theorem starts_hasSub (w : List Char) : ∀ l, startsL w l = true → hasSubL w l = true := by
  intro l h
  cases l with
  | nil => exact h
  | cons c rest => rw [hasSubL_cons, h]; rfl

theorem startsL_append_ext (w : List Char) : ∀ (l y : List Char),
    startsL w l = true → startsL w (l ++ y) = true := by
  induction w with
  | nil => intro l y _; rfl
  | cons a w ih =>
    intro l y h
    cases l with
    | nil => exact absurd h (by simp [startsL])
    | cons b l' =>
      rw [startsL_cons2] at h
      simp only [Bool.and_eq_true] at h
      rw [List.cons_append, startsL_cons2, h.1, ih l' y h.2]
      simp

theorem hasSub_append_left (w : List Char) : ∀ (x y : List Char),
    hasSubL w x = true → hasSubL w (x ++ y) = true := by
  intro x
  induction x with
  | nil =>
    intro y h
    cases w with
    | nil =>
      cases y with
      | nil => exact h
      | cons c r => rw [List.nil_append, hasSubL_cons]; rfl
    | cons a w' => exact absurd h (by simp [hasSubL, startsL])
  | cons c x' ih =>
    intro y h
    rw [hasSubL_cons] at h
    rw [List.cons_append, hasSubL_cons]
    cases hs : startsL w (c :: x') with
    | true =>
      have hx := startsL_append_ext w (c :: x') y hs
      rw [List.cons_append] at hx
      rw [hx]
      rfl
    | false =>
      rw [hs] at h
      simp only [Bool.false_or] at h
      rw [ih y h]
      simp

theorem hasSub_dropWhile (w : List Char) (p : Char → Bool) : ∀ l : List Char,
    hasSubL w (l.dropWhile p) = true → hasSubL w l = true := by
  intro l
  induction l with
  | nil => intro h; exact h
  | cons c rest ih =>
    intro h
    by_cases hp : p c
    · rw [List.dropWhile_cons_of_pos hp] at h
      exact hasSub_lift w c rest (ih h)
    · rwa [List.dropWhile_cons_of_neg hp] at h

theorem rstripWS_prefix : ∀ l : List Char, ∃ y, l = rstripWS l ++ y := by
  intro l
  induction l with
  | nil => exact ⟨[], rfl⟩
  | cons c rest ih =>
    obtain ⟨y, hy⟩ := ih
    by_cases hc : (rstripWS rest).isEmpty ∧ wsp c = true
    · refine ⟨c :: rest, ?_⟩
      show c :: rest = rstripWS (c :: rest) ++ (c :: rest)
      simp only [rstripWS]
      rw [if_pos (by simpa using hc)]
      rfl
    · refine ⟨y, ?_⟩
      show c :: rest = rstripWS (c :: rest) ++ y
      simp only [rstripWS]
      rw [if_neg (by simpa using hc)]
      rw [List.cons_append, ← hy]

theorem hasSub_rstrip (w l : List Char) (h : hasSubL w (rstripWS l) = true) :
    hasSubL w l = true := by
  obtain ⟨y, hy⟩ := rstripWS_prefix l
  rw [hy]
  exact hasSub_append_left w _ y h

theorem hasSub_trim (w l : List Char) (h : hasSubL w (trimC l) = true) :
    hasSubL w l = true :=
  hasSub_dropWhile w wsp l (hasSub_rstrip w _ h)

theorem mem_rstrip {x : Char} : ∀ {l : List Char}, x ∈ rstripWS l → x ∈ l := by
  intro l
  induction l with
  | nil => intro h; exact h
  | cons c rest ih =>
    intro h
    simp only [rstripWS] at h
    split at h
    · cases h
    · rcases List.mem_cons.mp h with he | he
      · rw [he]; exact List.mem_cons_self c rest
      · exact List.mem_cons_of_mem c (ih he)

theorem mem_dropW {x : Char} (p : Char → Bool) : ∀ {l : List Char}, x ∈ l.dropWhile p → x ∈ l := by
  intro l
  induction l with
  | nil => intro h; exact h
  | cons c rest ih =>
    intro h
    by_cases hp : p c
    · rw [List.dropWhile_cons_of_pos hp] at h
      exact List.mem_cons_of_mem c (ih h)
    · rwa [List.dropWhile_cons_of_neg hp] at h

theorem mem_trim {x : Char} {l : List Char} (h : x ∈ trimC l) : x ∈ l :=
  mem_dropW wsp (mem_rstrip h)

/-! Equation lemmas for the overlapping-pattern scanners. -/

theorem repNbsp_match (rest : List Char) :
    repNbsp ('&' :: 'n' :: 'b' :: 's' :: 'p' :: ';' :: rest) = ' ' :: repNbsp rest := rfl

theorem nbsp_starts_iff (l : List Char) :
    startsL nbspL l = true ↔ ∃ rest, l = '&' :: 'n' :: 'b' :: 's' :: 'p' :: ';' :: rest := by
  constructor
  · intro h
    rcases l with _ | ⟨c1, _ | ⟨c2, _ | ⟨c3, _ | ⟨c4, _ | ⟨c5, _ | ⟨c6, rest⟩⟩⟩⟩⟩⟩ <;>
      simp_all [nbspL, startsL]
    exact ⟨h.1.symm, h.2.1.symm, h.2.2.1.symm, h.2.2.2.1.symm, h.2.2.2.2.1.symm,
      h.2.2.2.2.2.symm⟩
  · rintro ⟨rest, rfl⟩
    rfl

theorem repNbsp_copy (c : Char) (rest : List Char)
    (h : startsL nbspL (c :: rest) = false) :
    repNbsp (c :: rest) = c :: repNbsp rest := by
  rw [repNbsp.eq_def]
  split
  · rename_i heq
    exact absurd heq (by simp)
  · rename_i r1 heq
    rw [show startsL nbspL (c :: rest) = true from
      (nbsp_starts_iff _).mpr ⟨r1, heq⟩] at h
    cases h
  · rename_i c2 r2 hback heq
    obtain ⟨hc, hr⟩ := List.cons.inj heq
    rw [hc, hr]

theorem del5_match (rest : List Char) : del5 ('\n' :: ' ' :: rest) = '\n' :: del5 rest := rfl

theorem del5_copy (c : Char) (rest : List Char)
    (h : ¬(c = '\n' ∧ rest.head? = some ' ')) : del5 (c :: rest) = c :: del5 rest := by
  rw [del5.eq_def]
  split
  · rename_i heq
    exact absurd heq (by simp)
  · rename_i r1 heq
    obtain ⟨hc, hr⟩ := List.cons.inj heq
    exact absurd ⟨hc, by rw [hr]; rfl⟩ h
  · rename_i c2 r2 hback heq
    obtain ⟨hc, hr⟩ := List.cons.inj heq
    rw [hc, hr]

theorem del6_match (rest : List Char) : del6 (' ' :: '\n' :: rest) = '\n' :: del6 rest := rfl

theorem del6_copy (c : Char) (rest : List Char)
    (h : ¬(c = ' ' ∧ rest.head? = some '\n')) : del6 (c :: rest) = c :: del6 rest := by
  rw [del6.eq_def]
  split
  · rename_i heq
    exact absurd heq (by simp)
  · rename_i r1 heq
    obtain ⟨hc, hr⟩ := List.cons.inj heq
    exact absurd ⟨hc, by rw [hr]; rfl⟩ h
  · rename_i c2 r2 hback heq
    obtain ⟨hc, hr⟩ := List.cons.inj heq
    rw [hc, hr]

theorem cnlS_nl (k : Nat) (rest : List Char) :
    cnlS k ('\n' :: rest) = if 2 ≤ k then cnlS k rest else '\n' :: cnlS (k + 1) rest := rfl

theorem cnlS_copy (k : Nat) (c : Char) (rest : List Char) (h : c ≠ '\n') :
    cnlS k (c :: rest) = c :: cnlS 0 rest := by
  rw [cnlS.eq_def]
  split
  · rename_i heq
    exact absurd heq (by simp)
  · rename_i k2 r2 heq
    cases heq
    exact absurd rfl h
  · rename_i k2 c2 r2 hback heq
    cases heq
    rfl

theorem st1_nil : st1 [] = [] := by rw [st1.eq_def]

theorem st1_some (c : Char) (rest rem : List Char) (h : mStep1 (c :: rest) = some rem) :
    st1 (c :: rest) = '\n' :: st1 rem := by
  rw [st1.eq_def]
  split
  · rename_i heq
    exact absurd heq (by simp)
  · rename_i c2 r2 heq
    cases heq
    split
    · rename_i rem2 hm
      rw [h] at hm
      cases hm
      rfl
    · rename_i hm
      rw [h] at hm
      cases hm

theorem st1_none (c : Char) (rest : List Char) (h : mStep1 (c :: rest) = none) :
    st1 (c :: rest) = c :: st1 rest := by
  rw [st1.eq_def]
  split
  · rename_i heq
    exact absurd heq (by simp)
  · rename_i c2 r2 heq
    cases heq
    split
    · rename_i rem2 hm
      rw [h] at hm
      cases hm
    · rfl

theorem stripTags_nil : stripTags [] = [] := by rw [stripTags.eq_def]

theorem stripTags_lt_yes (rest : List Char) (h : rest.head? ≠ some '>' ∧ '>' ∈ rest) :
    stripTags ('<' :: rest) = stripTags ((rest.dropWhile (· ≠ '>')).drop 1) := by
  rw [stripTags.eq_def]
  split
  · rename_i heq
    exact absurd heq (by simp)
  · rename_i r2 heq
    cases heq
    rw [if_pos h]
  · rename_i c2 r2 hback heq
    cases heq
    simp_all

theorem stripTags_lt_no (rest : List Char) (h : ¬(rest.head? ≠ some '>' ∧ '>' ∈ rest)) :
    stripTags ('<' :: rest) = '<' :: stripTags rest := by
  rw [stripTags.eq_def]
  split
  · rename_i heq
    exact absurd heq (by simp)
  · rename_i r2 heq
    cases heq
    rw [if_neg h]
  · rename_i c2 r2 hback heq
    cases heq
    simp_all

theorem stripTags_copy (c : Char) (rest : List Char) (h : c ≠ '<') :
    stripTags (c :: rest) = c :: stripTags rest := by
  rw [stripTags.eq_def]
  split
  · rename_i heq
    exact absurd heq (by simp)
  · rename_i r2 heq
    cases heq
    exact absurd rfl h
  · rename_i c2 r2 hback heq
    cases heq
    rfl

theorem chs_hs_true (c : Char) (rest : List Char) (h : isHS c = true) :
    chs true (c :: rest) = chs true rest := by
  simp [chs, h]

theorem chs_hs_false (c : Char) (rest : List Char) (h : isHS c = true) :
    chs false (c :: rest) = ' ' :: chs true rest := by
  simp [chs, h]

theorem chs_copy (b : Bool) (c : Char) (rest : List Char) (h : isHS c = false) :
    chs b (c :: rest) = c :: chs false rest := by
  simp [chs, h]

theorem del5_head : ∀ l : List Char, (del5 l).head? = l.head? := by
  intro l
  cases l with
  | nil => rfl
  | cons c rest =>
    by_cases hp : c = '\n' ∧ rest.head? = some ' '
    · obtain ⟨hc, hr⟩ := hp
      cases rest with
      | nil => cases hr
      | cons c2 r2 =>
        simp only [List.head?_cons, Option.some.injEq] at hr
        rw [hc, hr, del5_match]
        rfl
    · rw [del5_copy c rest hp]
      rfl

theorem del6_head : ∀ l : List Char,
    (del6 l).head? = l.head? ∨ ((del6 l).head? = some '\n' ∧ l.head? = some ' ') := by
  intro l
  cases l with
  | nil => exact Or.inl rfl
  | cons c rest =>
    by_cases hp : c = ' ' ∧ rest.head? = some '\n'
    · obtain ⟨hc, hr⟩ := hp
      cases rest with
      | nil => cases hr
      | cons c2 r2 =>
        simp only [List.head?_cons, Option.some.injEq] at hr
        rw [hc, hr, del6_match]
        exact Or.inr ⟨rfl, rfl⟩
    · rw [del6_copy c rest hp]
      exact Or.inl rfl

theorem headSp_del6 {l : List Char} (h : (del6 l).head? = some ' ') :
    l.head? = some ' ' := by
  rcases del6_head l with he | ⟨h1, h2⟩
  · rw [← he]; exact h
  · rw [h1] at h; cases h

theorem headNl_del6 {l : List Char} (h : (del6 l).head? = some '\n') :
    l.head? = some '\n' ∨ l.head? = some ' ' := by
  rcases del6_head l with he | ⟨h1, h2⟩
  · exact Or.inl (by rw [← he]; exact h)
  · exact Or.inr h2

theorem head_cnl_lt (k : Nat) (hk : k < 2) : ∀ l : List Char, (cnlS k l).head? = l.head? := by
  intro l
  cases l with
  | nil => rfl
  | cons c rest =>
    by_cases hc : c = '\n'
    · rw [hc, cnlS_nl, if_neg (by omega)]
      rfl
    · rw [cnlS_copy k c rest hc]
      rfl

theorem head_cnl2_ne : ∀ l : List Char, (cnlS 2 l).head? ≠ some '\n' := by
  intro l
  induction l with
  | nil => simp [cnlS]
  | cons c rest ih =>
    by_cases hc : c = '\n'
    · rw [hc, cnlS_nl, if_pos (by omega)]
      exact ih
    · rw [cnlS_copy 2 c rest hc]
      exact fun he => hc (Option.some.inj (by simpa using he))

theorem mem_repNbsp {x : Char} : ∀ l : List Char, x ∈ repNbsp l → x = ' ' ∨ x ∈ l := by
  intro l
  induction l using repNbsp.induct with
  | case1 => intro h; cases h
  | case2 rest ih =>
    intro h
    rw [repNbsp_match] at h
    rcases List.mem_cons.mp h with he | he
    · exact Or.inl he
    · rcases ih he with he2 | he2
      · exact Or.inl he2
      · right; simp [he2]
  | case3 c rest hne ih =>
    intro h
    have hcp : startsL nbspL (c :: rest) = false := by
      cases hs : startsL nbspL (c :: rest) with
      | false => rfl
      | true =>
        obtain ⟨r, hr⟩ := (nbsp_starts_iff _).mp hs
        obtain ⟨hc, hr2⟩ := List.cons.inj hr
        exact absurd (hne r hc hr2) id
    rw [repNbsp_copy c rest hcp] at h
    rcases List.mem_cons.mp h with he | he
    · right; rw [he]; exact List.mem_cons_self c rest
    · rcases ih he with he2 | he2
      · exact Or.inl he2
      · exact Or.inr (List.mem_cons_of_mem c he2)

theorem mem_chs {x : Char} : ∀ (l : List Char) (b : Bool), x ∈ chs b l → x = ' ' ∨ x ∈ l := by
  intro l
  induction l with
  | nil => intro b h; cases h
  | cons c rest ih =>
    intro b h
    by_cases hc : isHS c = true
    · cases b with
      | true =>
        rw [chs_hs_true c rest hc] at h
        rcases ih true h with he | he
        · exact Or.inl he
        · exact Or.inr (List.mem_cons_of_mem c he)
      | false =>
        rw [chs_hs_false c rest hc] at h
        rcases List.mem_cons.mp h with he | he
        · exact Or.inl he
        · rcases ih true he with he2 | he2
          · exact Or.inl he2
          · exact Or.inr (List.mem_cons_of_mem c he2)
    · rw [chs_copy b c rest (by simpa using hc)] at h
      rcases List.mem_cons.mp h with he | he
      · right; rw [he]; exact List.mem_cons_self c rest
      · rcases ih false he with he2 | he2
        · exact Or.inl he2
        · exact Or.inr (List.mem_cons_of_mem c he2)

theorem mem_del5 {x : Char} : ∀ l : List Char, x ∈ del5 l → x ∈ l := by
  intro l
  induction l using del5.induct with
  | case1 => intro h; cases h
  | case2 rest ih =>
    intro h
    rw [del5_match] at h
    rcases List.mem_cons.mp h with he | he
    · rw [he]; exact List.mem_cons_self _ _
    · exact List.mem_cons_of_mem _ (List.mem_cons_of_mem _ (ih he))
  | case3 c rest hne ih =>
    intro h
    have hcp : ¬(c = '\n' ∧ rest.head? = some ' ') := by
      rintro ⟨hc, hr⟩
      cases rest with
      | nil => cases hr
      | cons c2 r2 =>
        simp only [List.head?_cons, Option.some.injEq] at hr
        exact hne r2 hc (by rw [hr])
    rw [del5_copy c rest hcp] at h
    rcases List.mem_cons.mp h with he | he
    · rw [he]; exact List.mem_cons_self c rest
    · exact List.mem_cons_of_mem c (ih he)

theorem mem_del6 {x : Char} : ∀ l : List Char, x ∈ del6 l → x ∈ l := by
  intro l
  induction l using del6.induct with
  | case1 => intro h; cases h
  | case2 rest ih =>
    intro h
    rw [del6_match] at h
    rcases List.mem_cons.mp h with he | he
    · rw [he]; exact List.mem_cons_of_mem _ (List.mem_cons_self _ _)
    · exact List.mem_cons_of_mem _ (List.mem_cons_of_mem _ (ih he))
  | case3 c rest hne ih =>
    intro h
    have hcp : ¬(c = ' ' ∧ rest.head? = some '\n') := by
      rintro ⟨hc, hr⟩
      cases rest with
      | nil => cases hr
      | cons c2 r2 =>
        simp only [List.head?_cons, Option.some.injEq] at hr
        exact hne r2 hc (by rw [hr])
    rw [del6_copy c rest hcp] at h
    rcases List.mem_cons.mp h with he | he
    · rw [he]; exact List.mem_cons_self c rest
    · exact List.mem_cons_of_mem c (ih he)

theorem mem_cnlS {x : Char} : ∀ (l : List Char) (k : Nat), x ∈ cnlS k l → x ∈ l := by
  intro l
  induction l with
  | nil => intro k h; cases h
  | cons c rest ih =>
    intro k h
    by_cases hc : c = '\n'
    · rw [hc, cnlS_nl] at h
      by_cases hk : 2 ≤ k
      · rw [if_pos hk] at h
        rw [hc]
        exact List.mem_cons_of_mem _ (ih k h)
      · rw [if_neg hk] at h
        rw [hc]
        rcases List.mem_cons.mp h with he | he
        · rw [he]; exact List.mem_cons_self _ _
        · exact List.mem_cons_of_mem _ (ih (k + 1) he)
    · rw [cnlS_copy k c rest hc] at h
      rcases List.mem_cons.mp h with he | he
      · rw [he]; exact List.mem_cons_self c rest
      · exact List.mem_cons_of_mem c (ih 0 he)

/-! `pTag`: established by the tag stripper, preserved by every later
stage, and it makes both tag stages the identity. -/

theorem pTag_prefix : ∀ x y : List Char, pTag (x ++ y) → pTag x := by
  intro x
  induction x with
  | nil => intro y _; trivial
  | cons c x' ih =>
    intro y h
    refine ⟨fun hc => ?_, ih y h.2⟩
    rcases h.1 hc with hh | hh
    · cases x' with
      | nil =>
        right
        intro hm
        cases hm
      | cons a x'' =>
        left
        simpa using hh
    · right
      intro hm
      exact hh (List.mem_append_left y hm)

theorem pTag_dropWhile (p : Char → Bool) : ∀ l : List Char, pTag l → pTag (l.dropWhile p) := by
  intro l
  induction l with
  | nil => intro h; exact h
  | cons c rest ih =>
    intro h
    by_cases hp : p c
    · rw [List.dropWhile_cons_of_pos hp]
      exact ih h.2
    · rw [List.dropWhile_cons_of_neg hp]
      exact h

theorem pTag_rstrip (l : List Char) (h : pTag l) : pTag (rstripWS l) := by
  obtain ⟨y, hy⟩ := rstripWS_prefix l
  exact pTag_prefix _ y (by rw [← hy]; exact h)

theorem pTag_trim (l : List Char) (h : pTag l) : pTag (trimC l) :=
  pTag_rstrip _ (pTag_dropWhile wsp l h)

theorem mem_stripTags {x : Char} : ∀ l : List Char, x ∈ stripTags l → x ∈ l := by
  intro l
  induction l using stripTags.induct with
  | case1 =>
    intro h
    rw [stripTags_nil] at h
    cases h
  | case2 rest hc ih =>
    intro h
    rw [stripTags_lt_yes rest hc] at h
    have h2 := ih h
    have h3 : x ∈ rest.dropWhile (· ≠ '>') := List.mem_of_mem_drop h2
    exact List.mem_cons_of_mem '<' (mem_dropW _ h3)
  | case3 rest hc ih =>
    intro h
    rw [stripTags_lt_no rest hc] at h
    rcases List.mem_cons.mp h with he | he
    · rw [he]; exact List.mem_cons_self _ _
    · exact List.mem_cons_of_mem _ (ih he)
  | case4 c rest hne ih =>
    intro h
    have hcn : c ≠ '<' := fun hc0 => hne hc0
    rw [stripTags_copy c rest hcn] at h
    rcases List.mem_cons.mp h with he | he
    · rw [he]; exact List.mem_cons_self c rest
    · exact List.mem_cons_of_mem c (ih he)

theorem headGt_stripTags {rest : List Char} (h : rest.head? = some '>') :
    (stripTags rest).head? = some '>' := by
  cases rest with
  | nil => cases h
  | cons c r2 =>
    have hc : c = '>' := by simpa using h
    rw [hc, stripTags_copy '>' r2 (by decide)]
    rfl

theorem pTag_stripTags : ∀ l : List Char, pTag (stripTags l) := by
  intro l
  induction l using stripTags.induct with
  | case1 => rw [stripTags_nil]; trivial
  | case2 rest hc ih =>
    rw [stripTags_lt_yes rest hc]
    exact ih
  | case3 rest hc ih =>
    rw [stripTags_lt_no rest hc]
    refine ⟨fun _ => ?_, ih⟩
    by_cases hh : rest.head? = some '>'
    · exact Or.inl (headGt_stripTags hh)
    · right
      intro hm
      exact hc ⟨hh, mem_stripTags rest hm⟩
  | case4 c rest hne ih =>
    have hcn : c ≠ '<' := fun hc0 => hne hc0
    rw [stripTags_copy c rest hcn]
    exact ⟨fun hce => absurd hce hcn, ih⟩

theorem m1_pTag {l r : List Char} (hp : pTag l) (h : m1 l = some r) : False := by
  unfold m1 at h
  split at h
  case _ c rest =>
    rcases hp.1 rfl with hh | hh
    · simp at hh
    · exact hh (by simp)
  case _ c1 c2 rest =>
    rcases hp.1 rfl with hh | hh
    · simp at hh
    · exact hh (by simp)
  case _ => cases h

theorem m1div_pTag {l r : List Char} (hp : pTag l) (h : m1div l = some r) : False := by
  unfold m1div at h
  split at h
  case _ c1 c2 c3 rest =>
    rcases hp.1 rfl with hh | hh
    · simp at hh
    · exact hh (by simp)
  case _ => cases h

theorem m1br_pTag {l r : List Char} (hp : pTag l) (h : m1br l = some r) : False := by
  unfold m1br at h
  split at h
  case _ b r2 rest =>
    split at h
    case isTrue hbr =>
      have hb : b ≠ '>' := by
        intro he
        rw [he, show lowc '>' = '>' from by decide] at hbr
        simp at hbr
      rcases hp.1 rfl with hh | hh
      · simp only [List.head?_cons, Option.some.injEq] at hh
        exact hb hh
      · split at h
        case _ rest2 heq =>
          have hg : '>' ∈ rest.dropWhile wsp := by rw [heq]; simp
          exact hh (List.mem_cons_of_mem _ (List.mem_cons_of_mem _ (mem_dropW wsp hg)))
        case _ rest2 heq =>
          have hg : '>' ∈ rest.dropWhile wsp := by rw [heq]; simp
          exact hh (List.mem_cons_of_mem _ (List.mem_cons_of_mem _ (mem_dropW wsp hg)))
        case _ => cases h
    case isFalse => cases h
  case _ => cases h

theorem mStep1_pTag {l r : List Char} (hp : pTag l) (h : mStep1 l = some r) : False := by
  unfold mStep1 at h
  cases hm : m1 l with
  | some r1 => exact m1_pTag hp hm
  | none =>
    rw [hm] at h
    cases hd : m1div l with
    | some r1 => exact m1div_pTag hp hd
    | none =>
      rw [hd] at h
      exact m1br_pTag hp h

theorem st1_id : ∀ l : List Char, pTag l → st1 l = l := by
  intro l
  induction l with
  | nil => intro _; exact st1_nil
  | cons c rest ih =>
    intro hp
    cases hm : mStep1 (c :: rest) with
    | some rem => exact (mStep1_pTag hp hm).elim
    | none => rw [st1_none c rest hm, ih hp.2]

theorem stripTags_id : ∀ l : List Char, pTag l → stripTags l = l := by
  intro l
  induction l with
  | nil => intro _; exact stripTags_nil
  | cons c rest ih =>
    intro hp
    by_cases hc : c = '<'
    · subst hc
      have hcond : ¬(rest.head? ≠ some '>' ∧ '>' ∈ rest) := by
        rintro ⟨h1, h2⟩
        rcases hp.1 rfl with hh | hh
        · exact h1 hh
        · exact hh h2
      rw [stripTags_lt_no rest hcond, ih hp.2]
    · rw [stripTags_copy c rest hc, ih hp.2]

theorem nbsp_starts_not (c : Char) (rest : List Char)
    (hne : ∀ r : List Char, c = '&' → rest = 'n' :: 'b' :: 's' :: 'p' :: ';' :: r → False) :
    startsL nbspL (c :: rest) = false := by
  cases hs : startsL nbspL (c :: rest) with
  | false => rfl
  | true =>
    obtain ⟨r, hr⟩ := (nbsp_starts_iff _).mp hs
    obtain ⟨hc0, hr2⟩ := List.cons.inj hr
    exact absurd (hne r hc0 hr2) id

theorem headGt_repNbsp {l : List Char} (h : l.head? = some '>') :
    (repNbsp l).head? = some '>' := by
  cases l with
  | nil => cases h
  | cons c rest =>
    have hc : c = '>' := by simpa using h
    subst hc
    rw [repNbsp_copy '>' rest (by simp [nbspL, startsL])]
    rfl

theorem headGt_chs (b : Bool) {l : List Char} (h : l.head? = some '>') :
    (chs b l).head? = some '>' := by
  cases l with
  | nil => cases h
  | cons c rest =>
    have hc : c = '>' := by simpa using h
    subst hc
    rw [chs_copy b '>' rest (by decide)]
    rfl

theorem headGt_del6 {l : List Char} (h : l.head? = some '>') :
    (del6 l).head? = some '>' := by
  rcases del6_head l with he | ⟨h1, h2⟩
  · rw [he]; exact h
  · rw [h] at h2; exact absurd (Option.some.inj h2) (by decide)

theorem headGt_cnlS (k : Nat) {l : List Char} (h : l.head? = some '>') :
    (cnlS k l).head? = some '>' := by
  cases l with
  | nil => cases h
  | cons c rest =>
    have hc : c = '>' := by simpa using h
    subst hc
    rw [cnlS_copy k '>' rest (by decide)]
    rfl

theorem pTag_repNbsp : ∀ l : List Char, pTag l → pTag (repNbsp l) := by
  intro l
  induction l using repNbsp.induct with
  | case1 => intro h; exact h
  | case2 rest ih =>
    intro hp
    rw [repNbsp_match]
    exact ⟨fun hce => absurd hce (by decide), ih hp.2.2.2.2.2.2⟩
  | case3 c rest hne ih =>
    intro hp
    rw [repNbsp_copy c rest (nbsp_starts_not c rest hne)]
    refine ⟨fun hce => ?_, ih hp.2⟩
    rcases hp.1 hce with hh | hh
    · exact Or.inl (headGt_repNbsp hh)
    · right
      intro hm
      rcases mem_repNbsp rest hm with he | he
      · exact absurd he (by decide)
      · exact hh he

theorem pTag_chs : ∀ (l : List Char) (b : Bool), pTag l → pTag (chs b l) := by
  intro l
  induction l with
  | nil => intro b h; exact h
  | cons c rest ih =>
    intro b hp
    by_cases hc : isHS c = true
    · cases b with
      | true =>
        rw [chs_hs_true c rest hc]
        exact ih true hp.2
      | false =>
        rw [chs_hs_false c rest hc]
        exact ⟨fun hce => absurd hce (by decide), ih true hp.2⟩
    · rw [chs_copy b c rest (by simpa using hc)]
      refine ⟨fun hce => ?_, ih false hp.2⟩
      rcases hp.1 hce with hh | hh
      · exact Or.inl (headGt_chs false hh)
      · right
        intro hm
        rcases mem_chs rest false hm with he | he
        · exact absurd he (by decide)
        · exact hh he

theorem pTag_del5 : ∀ l : List Char, pTag l → pTag (del5 l) := by
  intro l
  induction l using del5.induct with
  | case1 => intro h; exact h
  | case2 rest ih =>
    intro hp
    rw [del5_match]
    exact ⟨fun hce => absurd hce (by decide), ih hp.2.2⟩
  | case3 c rest hne ih =>
    intro hp
    have hcp : ¬(c = '\n' ∧ rest.head? = some ' ') := by
      rintro ⟨hc, hr⟩
      cases rest with
      | nil => cases hr
      | cons c2 r2 =>
        simp only [List.head?_cons, Option.some.injEq] at hr
        exact hne r2 hc (by rw [hr])
    rw [del5_copy c rest hcp]
    refine ⟨fun hce => ?_, ih hp.2⟩
    rcases hp.1 hce with hh | hh
    · exact Or.inl (by rw [del5_head rest]; exact hh)
    · right
      intro hm
      exact hh (mem_del5 rest hm)

theorem pTag_del6 : ∀ l : List Char, pTag l → pTag (del6 l) := by
  intro l
  induction l using del6.induct with
  | case1 => intro h; exact h
  | case2 rest ih =>
    intro hp
    rw [del6_match]
    exact ⟨fun hce => absurd hce (by decide), ih hp.2.2⟩
  | case3 c rest hne ih =>
    intro hp
    have hcp : ¬(c = ' ' ∧ rest.head? = some '\n') := by
      rintro ⟨hc, hr⟩
      cases rest with
      | nil => cases hr
      | cons c2 r2 =>
        simp only [List.head?_cons, Option.some.injEq] at hr
        exact hne r2 hc (by rw [hr])
    rw [del6_copy c rest hcp]
    refine ⟨fun hce => ?_, ih hp.2⟩
    rcases hp.1 hce with hh | hh
    · exact Or.inl (headGt_del6 hh)
    · right
      intro hm
      exact hh (mem_del6 rest hm)

theorem pTag_cnlS : ∀ (l : List Char) (k : Nat), pTag l → pTag (cnlS k l) := by
  intro l
  induction l with
  | nil => intro k h; exact h
  | cons c rest ih =>
    intro k hp
    by_cases hc : c = '\n'
    · subst hc
      rw [cnlS_nl]
      by_cases hk : 2 ≤ k
      · rw [if_pos hk]
        exact ih k hp.2
      · rw [if_neg hk]
        exact ⟨fun hce => absurd hce (by decide), ih (k + 1) hp.2⟩
    · rw [cnlS_copy k c rest hc]
      refine ⟨fun hce => ?_, ih 0 hp.2⟩
      rcases hp.1 hce with hh | hh
      · exact Or.inl (headGt_cnlS 0 hh)
      · right
        intro hm
        exact hh (mem_cnlS rest 0 hm)

/-! No `&nbsp;` remains after step 3, and an occurrence of a word in a
later stage's output transfers back to that stage's input (the emitted
characters `' '` and `'\n'` cannot take part in a match of a word that
avoids them). -/

theorem hasSub_nil_w : ∀ l : List Char, hasSubL [] l = true := by
  intro l
  cases l with
  | nil => rfl
  | cons c rest => rfl

theorem bOr {a b : Bool} (h : (a || b) = true) : a = true ∨ b = true := by
  cases a with
  | false => right; simpa using h
  | true => left; rfl

theorem starts_repNbsp : ∀ l w : List Char, ' ' ∉ w →
    startsL w (repNbsp l) = true → startsL w l = true := by
  intro l
  induction l using repNbsp.induct with
  | case1 => intro w hw h; exact h
  | case2 rest ih =>
    intro w hw h
    rw [repNbsp_match] at h
    cases w with
    | nil => rfl
    | cons a w' =>
      rw [startsL_cons2] at h
      simp only [Bool.and_eq_true, decide_eq_true_eq] at h
      obtain ⟨ha, -⟩ := h
      subst ha
      exact absurd (List.mem_cons_self _ _) hw
  | case3 c rest hne ih =>
    intro w hw h
    rw [repNbsp_copy c rest (nbsp_starts_not c rest hne)] at h
    cases w with
    | nil => rfl
    | cons a w' =>
      rw [startsL_cons2] at h ⊢
      simp only [Bool.and_eq_true] at h
      rw [h.1, Bool.true_and]
      exact ih w' (fun hm => hw (List.mem_cons_of_mem a hm)) h.2

theorem noNbsp_repNbsp : ∀ l : List Char, hasSubL nbspL (repNbsp l) = false := by
  intro l
  induction l using repNbsp.induct with
  | case1 => rfl
  | case2 rest ih =>
    rw [repNbsp_match, hasSubL_cons]
    have h1 : startsL nbspL (' ' :: repNbsp rest) = false := by
      simp [nbspL, startsL]
    rw [h1, ih]
    rfl
  | case3 c rest hne ih =>
    rw [repNbsp_copy c rest (nbsp_starts_not c rest hne), hasSubL_cons]
    have h1 : startsL nbspL (c :: repNbsp rest) = false := by
      cases hs : startsL nbspL (c :: repNbsp rest) with
      | false => rfl
      | true =>
        have h2 : startsL nbspL (repNbsp (c :: rest)) = true := by
          rw [repNbsp_copy c rest (nbsp_starts_not c rest hne)]
          exact hs
        have h3 := starts_repNbsp (c :: rest) nbspL (by decide) h2
        rw [nbsp_starts_not c rest hne] at h3
        cases h3
    rw [h1, ih]
    rfl

theorem repNbsp_id : ∀ l : List Char, hasSubL nbspL l = false → repNbsp l = l := by
  intro l
  induction l with
  | nil => intro _; rfl
  | cons c rest ih =>
    intro h
    rw [repNbsp_copy c rest (noSub_starts h), ih (noSub_tail h)]

theorem starts_chs_false : ∀ l w : List Char, ' ' ∉ w →
    startsL w (chs false l) = true → startsL w l = true := by
  intro l
  induction l with
  | nil => intro w hw h; exact h
  | cons c rest ih =>
    intro w hw h
    by_cases hc : isHS c = true
    · rw [chs_hs_false c rest hc] at h
      cases w with
      | nil => rfl
      | cons a w' =>
        rw [startsL_cons2] at h
        simp only [Bool.and_eq_true, decide_eq_true_eq] at h
        obtain ⟨ha, -⟩ := h
        subst ha
        exact absurd (List.mem_cons_self _ _) hw
    · rw [chs_copy false c rest (by simpa using hc)] at h
      cases w with
      | nil => rfl
      | cons a w' =>
        rw [startsL_cons2] at h ⊢
        simp only [Bool.and_eq_true] at h
        rw [h.1, Bool.true_and]
        exact ih w' (fun hm => hw (List.mem_cons_of_mem a hm)) h.2

theorem hasSub_chs : ∀ (l : List Char) (b : Bool) (w : List Char), ' ' ∉ w →
    hasSubL w (chs b l) = true → hasSubL w l = true := by
  intro l
  induction l with
  | nil => intro b w hw h; exact h
  | cons c rest ih =>
    intro b w hw h
    by_cases hc : isHS c = true
    · cases b with
      | true =>
        rw [chs_hs_true c rest hc] at h
        exact hasSub_lift w c rest (ih true w hw h)
      | false =>
        rw [chs_hs_false c rest hc, hasSubL_cons] at h
        rcases bOr h with hs | hs
        · cases w with
          | nil => exact hasSub_nil_w _
          | cons a w' =>
            rw [startsL_cons2] at hs
            simp only [Bool.and_eq_true, decide_eq_true_eq] at hs
            obtain ⟨ha, -⟩ := hs
            subst ha
            exact absurd (List.mem_cons_self _ _) hw
        · exact hasSub_lift w c rest (ih true w hw hs)
    · rw [chs_copy b c rest (by simpa using hc), hasSubL_cons] at h
      rcases bOr h with hs | hs
      · cases w with
        | nil => exact hasSub_nil_w _
        | cons a w' =>
          rw [startsL_cons2] at hs
          simp only [Bool.and_eq_true] at hs
          have h2 := starts_chs_false rest w' (fun hm => hw (List.mem_cons_of_mem a hm)) hs.2
          refine starts_hasSub _ _ ?_
          rw [startsL_cons2, hs.1, Bool.true_and]
          exact h2
      · exact hasSub_lift w c rest (ih false w hw hs)

theorem starts_del5 : ∀ l w : List Char, '\n' ∉ w →
    startsL w (del5 l) = true → startsL w l = true := by
  intro l
  induction l using del5.induct with
  | case1 => intro w hw h; exact h
  | case2 rest ih =>
    intro w hw h
    rw [del5_match] at h
    cases w with
    | nil => rfl
    | cons a w' =>
      rw [startsL_cons2] at h
      simp only [Bool.and_eq_true, decide_eq_true_eq] at h
      obtain ⟨ha, -⟩ := h
      subst ha
      exact absurd (List.mem_cons_self _ _) hw
  | case3 c rest hne ih =>
    intro w hw h
    have hcp : ¬(c = '\n' ∧ rest.head? = some ' ') := by
      rintro ⟨hc, hr⟩
      cases rest with
      | nil => cases hr
      | cons c2 r2 =>
        simp only [List.head?_cons, Option.some.injEq] at hr
        exact hne r2 hc (by rw [hr])
    rw [del5_copy c rest hcp] at h
    cases w with
    | nil => rfl
    | cons a w' =>
      rw [startsL_cons2] at h ⊢
      simp only [Bool.and_eq_true] at h
      rw [h.1, Bool.true_and]
      exact ih w' (fun hm => hw (List.mem_cons_of_mem a hm)) h.2

theorem hasSub_del5 : ∀ l w : List Char, '\n' ∉ w →
    hasSubL w (del5 l) = true → hasSubL w l = true := by
  intro l
  induction l using del5.induct with
  | case1 => intro w hw h; exact h
  | case2 rest ih =>
    intro w hw h
    rw [del5_match, hasSubL_cons] at h
    rcases bOr h with hs | hs
    · cases w with
      | nil => exact hasSub_nil_w _
      | cons a w' =>
        rw [startsL_cons2] at hs
        simp only [Bool.and_eq_true, decide_eq_true_eq] at hs
        obtain ⟨ha, -⟩ := hs
        subst ha
        exact absurd (List.mem_cons_self _ _) hw
    · exact hasSub_lift w _ _ (hasSub_lift w _ _ (ih w hw hs))
  | case3 c rest hne ih =>
    intro w hw h
    have hcp : ¬(c = '\n' ∧ rest.head? = some ' ') := by
      rintro ⟨hc, hr⟩
      cases rest with
      | nil => cases hr
      | cons c2 r2 =>
        simp only [List.head?_cons, Option.some.injEq] at hr
        exact hne r2 hc (by rw [hr])
    rw [del5_copy c rest hcp, hasSubL_cons] at h
    rcases bOr h with hs | hs
    · cases w with
      | nil => exact hasSub_nil_w _
      | cons a w' =>
        rw [startsL_cons2] at hs
        simp only [Bool.and_eq_true] at hs
        have h2 := starts_del5 rest w' (fun hm => hw (List.mem_cons_of_mem a hm)) hs.2
        refine starts_hasSub _ _ ?_
        rw [startsL_cons2, hs.1, Bool.true_and]
        exact h2
    · exact hasSub_lift w c rest (ih w hw hs)

theorem starts_del6 : ∀ l w : List Char, '\n' ∉ w →
    startsL w (del6 l) = true → startsL w l = true := by
  intro l
  induction l using del6.induct with
  | case1 => intro w hw h; exact h
  | case2 rest ih =>
    intro w hw h
    rw [del6_match] at h
    cases w with
    | nil => rfl
    | cons a w' =>
      rw [startsL_cons2] at h
      simp only [Bool.and_eq_true, decide_eq_true_eq] at h
      obtain ⟨ha, -⟩ := h
      subst ha
      exact absurd (List.mem_cons_self _ _) hw
  | case3 c rest hne ih =>
    intro w hw h
    have hcp : ¬(c = ' ' ∧ rest.head? = some '\n') := by
      rintro ⟨hc, hr⟩
      cases rest with
      | nil => cases hr
      | cons c2 r2 =>
        simp only [List.head?_cons, Option.some.injEq] at hr
        exact hne r2 hc (by rw [hr])
    rw [del6_copy c rest hcp] at h
    cases w with
    | nil => rfl
    | cons a w' =>
      rw [startsL_cons2] at h ⊢
      simp only [Bool.and_eq_true] at h
      rw [h.1, Bool.true_and]
      exact ih w' (fun hm => hw (List.mem_cons_of_mem a hm)) h.2

theorem hasSub_del6 : ∀ l w : List Char, '\n' ∉ w →
    hasSubL w (del6 l) = true → hasSubL w l = true := by
  intro l
  induction l using del6.induct with
  | case1 => intro w hw h; exact h
  | case2 rest ih =>
    intro w hw h
    rw [del6_match, hasSubL_cons] at h
    rcases bOr h with hs | hs
    · cases w with
      | nil => exact hasSub_nil_w _
      | cons a w' =>
        rw [startsL_cons2] at hs
        simp only [Bool.and_eq_true, decide_eq_true_eq] at hs
        obtain ⟨ha, -⟩ := hs
        subst ha
        exact absurd (List.mem_cons_self _ _) hw
    · exact hasSub_lift w _ _ (hasSub_lift w _ _ (ih w hw hs))
  | case3 c rest hne ih =>
    intro w hw h
    have hcp : ¬(c = ' ' ∧ rest.head? = some '\n') := by
      rintro ⟨hc, hr⟩
      cases rest with
      | nil => cases hr
      | cons c2 r2 =>
        simp only [List.head?_cons, Option.some.injEq] at hr
        exact hne r2 hc (by rw [hr])
    rw [del6_copy c rest hcp, hasSubL_cons] at h
    rcases bOr h with hs | hs
    · cases w with
      | nil => exact hasSub_nil_w _
      | cons a w' =>
        rw [startsL_cons2] at hs
        simp only [Bool.and_eq_true] at hs
        have h2 := starts_del6 rest w' (fun hm => hw (List.mem_cons_of_mem a hm)) hs.2
        refine starts_hasSub _ _ ?_
        rw [startsL_cons2, hs.1, Bool.true_and]
        exact h2
    · exact hasSub_lift w c rest (ih w hw hs)

theorem starts_cnl0 : ∀ l w : List Char, '\n' ∉ w →
    startsL w (cnlS 0 l) = true → startsL w l = true := by
  intro l
  induction l with
  | nil => intro w hw h; exact h
  | cons c rest ih =>
    intro w hw h
    by_cases hc : c = '\n'
    · subst hc
      rw [cnlS_nl, if_neg (by omega)] at h
      cases w with
      | nil => rfl
      | cons a w' =>
        rw [startsL_cons2] at h
        simp only [Bool.and_eq_true, decide_eq_true_eq] at h
        obtain ⟨ha, -⟩ := h
        subst ha
        exact absurd (List.mem_cons_self _ _) hw
    · rw [cnlS_copy 0 c rest hc] at h
      cases w with
      | nil => rfl
      | cons a w' =>
        rw [startsL_cons2] at h ⊢
        simp only [Bool.and_eq_true] at h
        rw [h.1, Bool.true_and]
        exact ih w' (fun hm => hw (List.mem_cons_of_mem a hm)) h.2

theorem hasSub_cnlS : ∀ (l : List Char) (k : Nat) (w : List Char), '\n' ∉ w →
    hasSubL w (cnlS k l) = true → hasSubL w l = true := by
  intro l
  induction l with
  | nil => intro k w hw h; exact h
  | cons c rest ih =>
    intro k w hw h
    by_cases hc : c = '\n'
    · subst hc
      rw [cnlS_nl] at h
      by_cases hk : 2 ≤ k
      · rw [if_pos hk] at h
        exact hasSub_lift w _ _ (ih k w hw h)
      · rw [if_neg hk, hasSubL_cons] at h
        rcases bOr h with hs | hs
        · cases w with
          | nil => exact hasSub_nil_w _
          | cons a w' =>
            rw [startsL_cons2] at hs
            simp only [Bool.and_eq_true, decide_eq_true_eq] at hs
            obtain ⟨ha, -⟩ := hs
            subst ha
            exact absurd (List.mem_cons_self _ _) hw
        · exact hasSub_lift w _ _ (ih (k + 1) w hw hs)
    · rw [cnlS_copy k c rest hc, hasSubL_cons] at h
      rcases bOr h with hs | hs
      · cases w with
        | nil => exact hasSub_nil_w _
        | cons a w' =>
          rw [startsL_cons2] at hs
          simp only [Bool.and_eq_true] at hs
          have h2 := starts_cnl0 rest w' (fun hm => hw (List.mem_cons_of_mem a hm)) hs.2
          refine starts_hasSub _ _ ?_
          rw [startsL_cons2, hs.1, Bool.true_and]
          exact h2
      · exact hasSub_lift w c rest (ih 0 w hw hs)

/-! Whitespace facts: step 4 leaves no tab and no double space; steps 5-7
remove `"\n "`, `" \n"` and `"\n\n\n"` respectively (each needing that the
earlier stages' facts hold of its input); each is the identity when its
pattern is absent. -/

theorem starts1_eq (a c : Char) (rest : List Char) :
    startsL [a] (c :: rest) = decide (a = c) := by
  show (decide (a = c) && startsL [] rest) = decide (a = c)
  rw [show startsL [] rest = true from rfl, Bool.and_true]

theorem starts1_head (a : Char) (l : List Char) :
    startsL [a] l = true ↔ l.head? = some a := by
  cases l with
  | nil =>
    constructor
    · intro h; cases h
    · intro h; cases h
  | cons c rest =>
    rw [starts1_eq]
    simp [eq_comm]

theorem noTab_chs : ∀ (l : List Char) (b : Bool), '\t' ∉ chs b l := by
  intro l
  induction l with
  | nil => intro b hm; cases hm
  | cons c rest ih =>
    intro b hm
    by_cases hc : isHS c = true
    · cases b with
      | true =>
        rw [chs_hs_true c rest hc] at hm
        exact ih true hm
      | false =>
        rw [chs_hs_false c rest hc] at hm
        rcases List.mem_cons.mp hm with he | he
        · exact absurd he (by decide)
        · exact ih true he
    · rw [chs_copy b c rest (by simpa using hc)] at hm
      rcases List.mem_cons.mp hm with he | he
      · subst he
        exact hc (by decide)
      · exact ih false he

theorem headNotSp_chsTrue : ∀ l : List Char, (chs true l).head? ≠ some ' ' := by
  intro l
  induction l with
  | nil => intro h; cases h
  | cons c rest ih =>
    by_cases hc : isHS c = true
    · rw [chs_hs_true c rest hc]
      exact ih
    · rw [chs_copy true c rest (by simpa using hc)]
      intro he
      simp only [List.head?_cons, Option.some.injEq] at he
      exact hc (by rw [he]; decide)

theorem no2sp_chs : ∀ (l : List Char) (b : Bool), hasSubL [' ', ' '] (chs b l) = false := by
  intro l
  induction l with
  | nil => intro b; rfl
  | cons c rest ih =>
    intro b
    by_cases hc : isHS c = true
    · cases b with
      | true =>
        rw [chs_hs_true c rest hc]
        exact ih true
      | false =>
        rw [chs_hs_false c rest hc, hasSubL_cons]
        have h1 : startsL [' '] (chs true rest) = false := by
          cases hs : startsL [' '] (chs true rest) with
          | false => rfl
          | true => exact absurd ((starts1_head _ _).mp hs) (headNotSp_chsTrue rest)
        have h2 : startsL [' ', ' '] (' ' :: chs true rest) = false := by
          show (decide (' ' = ' ') && startsL [' '] (chs true rest)) = false
          rw [h1, Bool.and_false]
        rw [h2, ih true]
        rfl
    · rw [chs_copy b c rest (by simpa using hc), hasSubL_cons]
      have h2 : startsL [' ', ' '] (c :: chs false rest) = false := by
        show (decide (' ' = c) && startsL [' '] (chs false rest)) = false
        have hcs : c ≠ ' ' := fun he => hc (by rw [he]; decide)
        rw [decide_eq_false (fun he => hcs he.symm), Bool.false_and]
      rw [h2, ih false]
      rfl

theorem chs_id_pair : ∀ l : List Char,
    ('\t' ∉ l → hasSubL [' ', ' '] l = false → chs false l = l) ∧
    ('\t' ∉ l → hasSubL [' ', ' '] l = false → l.head? ≠ some ' ' → chs true l = l) := by
  intro l
  induction l with
  | nil => exact ⟨fun _ _ => rfl, fun _ _ _ => rfl⟩
  | cons c rest ih =>
    constructor
    · intro ht hs
      by_cases hc : c = ' '
      · subst hc
        rw [chs_hs_false ' ' rest (by decide)]
        congr 1
        refine (ih.2) (fun hm => ht (List.mem_cons_of_mem _ hm)) (noSub_tail hs) ?_
        intro hh
        have h1 : startsL [' ', ' '] (' ' :: rest) = true := by
          show (decide (' ' = ' ') && startsL [' '] rest) = true
          rw [(starts1_head ' ' rest).mpr hh]
          rfl
        rw [noSub_starts hs] at h1
        cases h1
      · have hc2 : c ≠ '\t' := by
          intro he
          subst he
          exact ht (List.mem_cons_self _ _)
        have hhs : isHS c = false := by simp [isHS, hc, hc2]
        rw [chs_copy false c rest hhs]
        congr 1
        exact (ih.1) (fun hm => ht (List.mem_cons_of_mem _ hm)) (noSub_tail hs)
    · intro ht hs hh
      have hc : c ≠ ' ' := fun he => hh (by simp [he])
      have hc2 : c ≠ '\t' := by
        intro he
        subst he
        exact ht (List.mem_cons_self _ _)
      have hhs : isHS c = false := by simp [isHS, hc, hc2]
      rw [chs_copy true c rest hhs]
      congr 1
      exact (ih.1) (fun hm => ht (List.mem_cons_of_mem _ hm)) (noSub_tail hs)

theorem chs_id (l : List Char) (ht : '\t' ∉ l) (hs : hasSubL [' ', ' '] l = false) :
    chs false l = l :=
  (chs_id_pair l).1 ht hs

theorem starts1_del5 {rest : List Char} (h : rest.head? ≠ some ' ') :
    startsL [' '] (del5 rest) = false := by
  cases hs : startsL [' '] (del5 rest) with
  | false => rfl
  | true =>
    have h2 := (starts1_head _ _).mp hs
    rw [del5_head rest] at h2
    exact absurd h2 h

theorem noNlSp_del5 : ∀ l : List Char, hasSubL [' ', ' '] l = false →
    hasSubL ['\n', ' '] (del5 l) = false := by
  intro l
  induction l using del5.induct with
  | case1 => intro _; rfl
  | case2 rest ih =>
    intro h
    rw [del5_match, hasSubL_cons]
    have hr : rest.head? ≠ some ' ' := by
      intro hh
      have h1 : startsL [' ', ' '] (' ' :: rest) = true := by
        show (decide (' ' = ' ') && startsL [' '] rest) = true
        rw [(starts1_head ' ' rest).mpr hh]
        rfl
      rw [noSub_starts (noSub_tail h)] at h1
      cases h1
    have h1 : startsL ['\n', ' '] ('\n' :: del5 rest) = false := by
      show (decide ('\n' = '\n') && startsL [' '] (del5 rest)) = false
      rw [starts1_del5 hr, Bool.and_false]
    rw [h1, ih (noSub_tail (noSub_tail h))]
    rfl
  | case3 c rest hne ih =>
    intro h
    have hcp : ¬(c = '\n' ∧ rest.head? = some ' ') := by
      rintro ⟨hc, hr⟩
      cases rest with
      | nil => cases hr
      | cons c2 r2 =>
        simp only [List.head?_cons, Option.some.injEq] at hr
        exact hne r2 hc (by rw [hr])
    rw [del5_copy c rest hcp, hasSubL_cons]
    have h1 : startsL ['\n', ' '] (c :: del5 rest) = false := by
      show (decide ('\n' = c) && startsL [' '] (del5 rest)) = false
      by_cases hc : c = '\n'
      · subst hc
        have hr : rest.head? ≠ some ' ' := fun hh => hcp ⟨rfl, hh⟩
        rw [starts1_del5 hr, Bool.and_false]
      · rw [decide_eq_false (fun he => hc he.symm), Bool.false_and]
    rw [h1, ih (noSub_tail h)]
    rfl

theorem del5_id : ∀ l : List Char, hasSubL ['\n', ' '] l = false → del5 l = l := by
  intro l
  induction l with
  | nil => intro _; rfl
  | cons c rest ih =>
    intro h
    have hcp : ¬(c = '\n' ∧ rest.head? = some ' ') := by
      rintro ⟨hc, hr⟩
      have h1 : startsL ['\n', ' '] (c :: rest) = true := by
        show (decide ('\n' = c) && startsL [' '] rest) = true
        rw [decide_eq_true hc.symm, (starts1_head ' ' rest).mpr hr]
        rfl
      rw [noSub_starts h] at h1
      cases h1
    rw [del5_copy c rest hcp, ih (noSub_tail h)]

theorem starts1nl_del6 {rest : List Char} (h1 : rest.head? ≠ some '\n')
    (h2 : rest.head? ≠ some ' ') : startsL ['\n'] (del6 rest) = false := by
  cases hs : startsL ['\n'] (del6 rest) with
  | false => rfl
  | true =>
    have h3 := (starts1_head _ _).mp hs
    rcases headNl_del6 h3 with hh | hh
    · exact absurd hh h1
    · exact absurd hh h2

theorem noSpNl_del6 : ∀ l : List Char, hasSubL [' ', ' '] l = false →
    hasSubL [' ', '\n'] (del6 l) = false := by
  intro l
  induction l using del6.induct with
  | case1 => intro _; rfl
  | case2 rest ih =>
    intro h
    rw [del6_match, hasSubL_cons]
    have h1 : startsL [' ', '\n'] ('\n' :: del6 rest) = false := by
      show (decide (' ' = '\n') && startsL ['\n'] (del6 rest)) = false
      rw [show decide (' ' = '\n') = false from by decide, Bool.false_and]
    rw [h1, ih (noSub_tail (noSub_tail h))]
    rfl
  | case3 c rest hne ih =>
    intro h
    have hcp : ¬(c = ' ' ∧ rest.head? = some '\n') := by
      rintro ⟨hc, hr⟩
      cases rest with
      | nil => cases hr
      | cons c2 r2 =>
        simp only [List.head?_cons, Option.some.injEq] at hr
        exact hne r2 hc (by rw [hr])
    rw [del6_copy c rest hcp, hasSubL_cons]
    have h1 : startsL [' ', '\n'] (c :: del6 rest) = false := by
      show (decide (' ' = c) && startsL ['\n'] (del6 rest)) = false
      by_cases hc : c = ' '
      · subst hc
        have hr1 : rest.head? ≠ some '\n' := fun hh => hcp ⟨rfl, hh⟩
        have hr2 : rest.head? ≠ some ' ' := by
          intro hh
          have h2 : startsL [' ', ' '] (' ' :: rest) = true := by
            show (decide (' ' = ' ') && startsL [' '] rest) = true
            rw [(starts1_head ' ' rest).mpr hh]
            rfl
          rw [noSub_starts h] at h2
          cases h2
        rw [starts1nl_del6 hr1 hr2, Bool.and_false]
      · rw [decide_eq_false (fun he => hc he.symm), Bool.false_and]
    rw [h1, ih (noSub_tail h)]
    rfl

theorem del6_id : ∀ l : List Char, hasSubL [' ', '\n'] l = false → del6 l = l := by
  intro l
  induction l with
  | nil => intro _; rfl
  | cons c rest ih =>
    intro h
    have hcp : ¬(c = ' ' ∧ rest.head? = some '\n') := by
      rintro ⟨hc, hr⟩
      have h1 : startsL [' ', '\n'] (c :: rest) = true := by
        show (decide (' ' = c) && startsL ['\n'] rest) = true
        rw [decide_eq_true hc.symm, (starts1_head '\n' rest).mpr hr]
        rfl
      rw [noSub_starts h] at h1
      cases h1
    rw [del6_copy c rest hcp, ih (noSub_tail h)]

theorem noNlSp_del6 : ∀ l : List Char, hasSubL ['\n', ' '] l = false →
    hasSubL ['\n', ' '] (del6 l) = false := by
  intro l
  induction l using del6.induct with
  | case1 => intro _; rfl
  | case2 rest ih =>
    intro h
    rw [del6_match, hasSubL_cons]
    have hr : rest.head? ≠ some ' ' := by
      intro hh
      have h1 : startsL ['\n', ' '] ('\n' :: rest) = true := by
        show (decide ('\n' = '\n') && startsL [' '] rest) = true
        rw [(starts1_head ' ' rest).mpr hh]
        rfl
      rw [noSub_starts (noSub_tail h)] at h1
      cases h1
    have h1 : startsL ['\n', ' '] ('\n' :: del6 rest) = false := by
      show (decide ('\n' = '\n') && startsL [' '] (del6 rest)) = false
      have h2 : startsL [' '] (del6 rest) = false := by
        cases hs : startsL [' '] (del6 rest) with
        | false => rfl
        | true => exact absurd (headSp_del6 ((starts1_head _ _).mp hs)) hr
      rw [h2, Bool.and_false]
    rw [h1, ih (noSub_tail (noSub_tail h))]
    rfl
  | case3 c rest hne ih =>
    intro h
    have hcp : ¬(c = ' ' ∧ rest.head? = some '\n') := by
      rintro ⟨hc, hr⟩
      cases rest with
      | nil => cases hr
      | cons c2 r2 =>
        simp only [List.head?_cons, Option.some.injEq] at hr
        exact hne r2 hc (by rw [hr])
    rw [del6_copy c rest hcp, hasSubL_cons]
    have h1 : startsL ['\n', ' '] (c :: del6 rest) = false := by
      show (decide ('\n' = c) && startsL [' '] (del6 rest)) = false
      by_cases hc : c = '\n'
      · subst hc
        have hr : rest.head? ≠ some ' ' := by
          intro hh
          have h2 : startsL ['\n', ' '] ('\n' :: rest) = true := by
            show (decide ('\n' = '\n') && startsL [' '] rest) = true
            rw [(starts1_head ' ' rest).mpr hh]
            rfl
          rw [noSub_starts h] at h2
          cases h2
        have h2 : startsL [' '] (del6 rest) = false := by
          cases hs : startsL [' '] (del6 rest) with
          | false => rfl
          | true => exact absurd (headSp_del6 ((starts1_head _ _).mp hs)) hr
        rw [h2, Bool.and_false]
      · rw [decide_eq_false (fun he => hc he.symm), Bool.false_and]
    rw [h1, ih (noSub_tail h)]
    rfl

theorem head_cnl2_dw : ∀ l : List Char,
    (cnlS 2 l).head? = (l.dropWhile (fun x : Char => decide (x = '\n'))).head? := by
  intro l
  induction l with
  | nil => rfl
  | cons c rest ih =>
    by_cases hc : c = '\n'
    · subst hc
      rw [cnlS_nl, if_pos (by omega), ih,
        List.dropWhile_cons_of_pos (by simp)]
    · rw [cnlS_copy 2 c rest hc,
        List.dropWhile_cons_of_neg (by simpa using hc)]
      rfl

theorem nlsp_dropNl : ∀ rest : List Char, hasSubL ['\n', ' '] ('\n' :: rest) = false →
    (rest.dropWhile (fun x : Char => decide (x = '\n'))).head? ≠ some ' ' := by
  intro rest
  induction rest with
  | nil => intro _ hh; cases hh
  | cons c r ihr =>
    intro h
    by_cases hc : c = '\n'
    · subst hc
      rw [List.dropWhile_cons_of_pos (by simp)]
      exact ihr (noSub_tail h)
    · rw [List.dropWhile_cons_of_neg (by simpa using hc)]
      intro hh
      simp only [List.head?_cons, Option.some.injEq] at hh
      have h1 : startsL ['\n', ' '] ('\n' :: c :: r) = true := by
        show (decide ('\n' = '\n') && startsL [' '] (c :: r)) = true
        rw [starts1_eq, decide_eq_true hh.symm]
        rfl
      rw [noSub_starts h] at h1
      cases h1

theorem noNlSp_cnlS : ∀ l : List Char, hasSubL ['\n', ' '] l = false →
    ∀ k : Nat, hasSubL ['\n', ' '] (cnlS k l) = false := by
  intro l
  induction l with
  | nil => intro _ k; rfl
  | cons c rest ih =>
    intro h k
    by_cases hc : c = '\n'
    · subst hc
      rw [cnlS_nl]
      by_cases hk : 2 ≤ k
      · rw [if_pos hk]
        exact ih (noSub_tail h) k
      · rw [if_neg hk, hasSubL_cons]
        have hhead : (cnlS (k + 1) rest).head? ≠ some ' ' := by
          by_cases hk1 : k + 1 < 2
          · rw [head_cnl_lt (k + 1) hk1 rest]
            intro hh
            have h1 : startsL ['\n', ' '] ('\n' :: rest) = true := by
              show (decide ('\n' = '\n') && startsL [' '] rest) = true
              rw [(starts1_head ' ' rest).mpr hh]
              rfl
            rw [noSub_starts h] at h1
            cases h1
          · have hk2 : k + 1 = 2 := by omega
            rw [hk2, head_cnl2_dw rest]
            exact nlsp_dropNl rest h
        have h1 : startsL ['\n', ' '] ('\n' :: cnlS (k + 1) rest) = false := by
          show (decide ('\n' = '\n') && startsL [' '] (cnlS (k + 1) rest)) = false
          have h2 : startsL [' '] (cnlS (k + 1) rest) = false := by
            cases hs : startsL [' '] (cnlS (k + 1) rest) with
            | false => rfl
            | true => exact absurd ((starts1_head _ _).mp hs) hhead
          rw [h2, Bool.and_false]
        rw [h1, ih (noSub_tail h) (k + 1)]
        rfl
    · rw [cnlS_copy k c rest hc, hasSubL_cons]
      have h1 : startsL ['\n', ' '] (c :: cnlS 0 rest) = false := by
        show (decide ('\n' = c) && startsL [' '] (cnlS 0 rest)) = false
        rw [decide_eq_false (fun he => hc he.symm), Bool.false_and]
      rw [h1, ih (noSub_tail h) 0]
      rfl

theorem noSpNl_cnlS : ∀ l : List Char, hasSubL [' ', '\n'] l = false →
    ∀ k : Nat, hasSubL [' ', '\n'] (cnlS k l) = false := by
  intro l
  induction l with
  | nil => intro _ k; rfl
  | cons c rest ih =>
    intro h k
    by_cases hc : c = '\n'
    · subst hc
      rw [cnlS_nl]
      by_cases hk : 2 ≤ k
      · rw [if_pos hk]
        exact ih (noSub_tail h) k
      · rw [if_neg hk, hasSubL_cons]
        have h1 : startsL [' ', '\n'] ('\n' :: cnlS (k + 1) rest) = false := by
          show (decide (' ' = '\n') && startsL ['\n'] (cnlS (k + 1) rest)) = false
          rw [show decide (' ' = '\n') = false from by decide, Bool.false_and]
        rw [h1, ih (noSub_tail h) (k + 1)]
        rfl
    · rw [cnlS_copy k c rest hc, hasSubL_cons]
      have h1 : startsL [' ', '\n'] (c :: cnlS 0 rest) = false := by
        show (decide (' ' = c) && startsL ['\n'] (cnlS 0 rest)) = false
        by_cases hcs : c = ' '
        · subst hcs
          have hr : rest.head? ≠ some '\n' := by
            intro hh
            have h2 : startsL [' ', '\n'] (' ' :: rest) = true := by
              show (decide (' ' = ' ') && startsL ['\n'] rest) = true
              rw [(starts1_head '\n' rest).mpr hh]
              rfl
            rw [noSub_starts h] at h2
            cases h2
          have h2 : startsL ['\n'] (cnlS 0 rest) = false := by
            cases hs : startsL ['\n'] (cnlS 0 rest) with
            | false => rfl
            | true =>
              have h3 := (starts1_head _ _).mp hs
              rw [head_cnl_lt 0 (by omega) rest] at h3
              exact absurd h3 hr
          rw [h2, Bool.and_false]
        · rw [decide_eq_false (fun he => hcs he.symm), Bool.false_and]
      rw [h1, ih (noSub_tail h) 0]
      rfl

theorem starts2nl_cnl2 (l : List Char) : startsL ['\n', '\n'] (cnlS 2 l) = false := by
  cases hX : cnlS 2 l with
  | nil => rfl
  | cons x xs =>
    show (decide ('\n' = x) && startsL ['\n'] xs) = false
    have hx : x ≠ '\n' := by
      intro he
      subst he
      exact head_cnl2_ne l (by rw [hX]; rfl)
    rw [decide_eq_false (fun he => hx he.symm), Bool.false_and]

theorem starts2nl_cnl1 (l : List Char) : startsL ['\n', '\n'] (cnlS 1 l) = false := by
  cases l with
  | nil => rfl
  | cons c rest =>
    by_cases hc : c = '\n'
    · subst hc
      rw [cnlS_nl, if_neg (by omega)]
      show (decide ('\n' = '\n') && startsL ['\n'] (cnlS 2 rest)) = false
      have h2 : startsL ['\n'] (cnlS 2 rest) = false := by
        cases hs : startsL ['\n'] (cnlS 2 rest) with
        | false => rfl
        | true => exact absurd ((starts1_head _ _).mp hs) (head_cnl2_ne rest)
      rw [h2, Bool.and_false]
    · rw [cnlS_copy 1 c rest hc]
      show (decide ('\n' = c) && startsL ['\n'] (cnlS 0 rest)) = false
      rw [decide_eq_false (fun he => hc he.symm), Bool.false_and]

theorem no3nl_cnlS : ∀ (l : List Char) (k : Nat),
    hasSubL ['\n', '\n', '\n'] (cnlS k l) = false := by
  intro l
  induction l with
  | nil => intro k; rfl
  | cons c rest ih =>
    intro k
    by_cases hc : c = '\n'
    · subst hc
      rw [cnlS_nl]
      by_cases hk : 2 ≤ k
      · rw [if_pos hk]
        exact ih k
      · rw [if_neg hk, hasSubL_cons]
        have h1 : startsL ['\n', '\n', '\n'] ('\n' :: cnlS (k + 1) rest) = false := by
          show (decide ('\n' = '\n') && startsL ['\n', '\n'] (cnlS (k + 1) rest)) = false
          have h2 : startsL ['\n', '\n'] (cnlS (k + 1) rest) = false := by
            by_cases hk1 : k = 0
            · rw [hk1]
              exact starts2nl_cnl1 rest
            · have hk2 : k + 1 = 2 := by omega
              rw [hk2]
              exact starts2nl_cnl2 rest
          rw [h2, Bool.and_false]
        rw [h1, ih (k + 1)]
        rfl
    · rw [cnlS_copy k c rest hc, hasSubL_cons]
      have h1 : startsL ['\n', '\n', '\n'] (c :: cnlS 0 rest) = false := by
        show (decide ('\n' = c) && startsL ['\n', '\n'] (cnlS 0 rest)) = false
        rw [decide_eq_false (fun he => hc he.symm), Bool.false_and]
      rw [h1, ih 0]
      rfl

theorem cnl_id_triple : ∀ l : List Char, hasSubL ['\n', '\n', '\n'] l = false →
    cnlS 0 l = l ∧ (startsL ['\n', '\n'] l = false → cnlS 1 l = l) ∧
    (l.head? ≠ some '\n' → cnlS 2 l = l) := by
  intro l
  induction l with
  | nil => exact fun _ => ⟨rfl, fun _ => rfl, fun _ => rfl⟩
  | cons c rest ih =>
    intro h
    obtain ⟨ih0, ih1, ih2⟩ := ih (noSub_tail h)
    by_cases hc : c = '\n'
    · subst hc
      refine ⟨?_, ?_, ?_⟩
      · rw [cnlS_nl, if_neg (by omega)]
        congr 1
        apply ih1
        have hs := noSub_starts h
        rw [show startsL ['\n', '\n', '\n'] ('\n' :: rest) =
          (decide ('\n' = '\n') && startsL ['\n', '\n'] rest) from rfl] at hs
        simpa using hs
      · intro hs2
        rw [cnlS_nl, if_neg (by omega)]
        congr 1
        apply ih2
        intro hh
        have h1 : startsL ['\n', '\n'] ('\n' :: rest) = true := by
          show (decide ('\n' = '\n') && startsL ['\n'] rest) = true
          rw [(starts1_head '\n' rest).mpr hh]
          rfl
        rw [hs2] at h1
        cases h1
      · intro hh
        exact absurd rfl hh
    · refine ⟨?_, fun _ => ?_, fun _ => ?_⟩ <;>
        rw [cnlS_copy _ c rest hc, ih0]

theorem cnl_id (l : List Char) (h : hasSubL ['\n', '\n', '\n'] l = false) :
    cnlS 0 l = l :=
  (cnl_id_triple l h).1

/-! `trim` is idempotent, and the whole pipeline is therefore the identity
on its own output. -/

theorem rstrip_cons (c : Char) (rest : List Char) :
    rstripWS (c :: rest) =
      if (rstripWS rest).isEmpty && wsp c then [] else c :: rstripWS rest := rfl

theorem rstrip_idem : ∀ l : List Char, rstripWS (rstripWS l) = rstripWS l := by
  intro l
  induction l with
  | nil => rfl
  | cons c rest ih =>
    cases hcond : ((rstripWS rest).isEmpty && wsp c) with
    | true =>
      rw [rstrip_cons, if_pos hcond]
      rfl
    | false =>
      have hneg : ¬(((rstripWS rest).isEmpty && wsp c) = true) := by
        rw [hcond]
        exact Bool.false_ne_true
      rw [rstrip_cons, if_neg hneg, rstrip_cons, ih, if_neg hneg]

theorem rstrip_head {m : List Char} {x : Char} {xs : List Char}
    (h : rstripWS m = x :: xs) : m.head? = some x := by
  cases m with
  | nil => cases h
  | cons c rest =>
    rw [rstrip_cons] at h
    by_cases hcond : ((rstripWS rest).isEmpty && wsp c) = true
    · rw [if_pos hcond] at h
      cases h
    · rw [if_neg hcond] at h
      cases h
      rfl

theorem dropW_head_not (p : Char → Bool) : ∀ (l : List Char) (c : Char),
    (l.dropWhile p).head? = some c → p c = false := by
  intro l
  induction l with
  | nil => intro c h; cases h
  | cons a rest ih =>
    intro c h
    by_cases hp : p a
    · rw [List.dropWhile_cons_of_pos hp] at h
      exact ih c h
    · rw [List.dropWhile_cons_of_neg hp] at h
      simp only [List.head?_cons, Option.some.injEq] at h
      subst h
      simpa using hp

theorem trim_idem : ∀ l : List Char, trimC (trimC l) = trimC l := by
  intro l
  show rstripWS ((rstripWS (l.dropWhile wsp)).dropWhile wsp) = rstripWS (l.dropWhile wsp)
  have hdw : (rstripWS (l.dropWhile wsp)).dropWhile wsp = rstripWS (l.dropWhile wsp) := by
    cases hX : rstripWS (l.dropWhile wsp) with
    | nil => rfl
    | cons x xs =>
      have hx : (l.dropWhile wsp).head? = some x := rstrip_head hX
      have hw : wsp x = false := dropW_head_not wsp l x hx
      rw [List.dropWhile_cons_of_neg (by rw [hw]; exact Bool.false_ne_true)]
  rw [hdw, rstrip_idem]

theorem noSub_transfer {w x y : List Char}
    (tr : hasSubL w y = true → hasSubL w x = true)
    (hx : hasSubL w x = false) : hasSubL w y = false := by
  cases hy : hasSubL w y with
  | false => rfl
  | true =>
    rw [tr hy] at hx
    cases hx

theorem toPlainL_fix (l : List Char) : toPlainL (toPlainL l) = toPlainL l := by
  have hP2 : pTag (stripTags (st1 l)) := pTag_stripTags (st1 l)
  have hP3 := pTag_repNbsp _ hP2
  have hP4 := pTag_chs _ false hP3
  have hP5 := pTag_del5 _ hP4
  have hP6 := pTag_del6 _ hP5
  have hP7 := pTag_cnlS _ 0 hP6
  have hPo := pTag_trim _ hP7
  have hN3 : hasSubL nbspL (repNbsp (stripTags (st1 l))) = false := noNbsp_repNbsp _
  have hN4 := noSub_transfer (hasSub_chs _ false nbspL (by decide)) hN3
  have hN5 := noSub_transfer (hasSub_del5 _ nbspL (by decide)) hN4
  have hN6 := noSub_transfer (hasSub_del6 _ nbspL (by decide)) hN5
  have hN7 := noSub_transfer (hasSub_cnlS _ 0 nbspL (by decide)) hN6
  have hNo := noSub_transfer (hasSub_trim nbspL _) hN7
  have hT4 : '\t' ∉ chs false (repNbsp (stripTags (st1 l))) := noTab_chs _ false
  have hT5 : '\t' ∉ del5 (chs false (repNbsp (stripTags (st1 l)))) :=
    fun hm => hT4 (mem_del5 _ hm)
  have hT6 := fun hm => hT5 (mem_del6 _ hm)
  have hT7 := fun hm => hT6 (mem_cnlS _ 0 hm)
  have hTo := fun hm => hT7 (mem_trim hm)
  have hS4 : hasSubL [' ', ' '] (chs false (repNbsp (stripTags (st1 l)))) = false :=
    no2sp_chs _ false
  have hS5 := noSub_transfer (hasSub_del5 _ [' ', ' '] (by decide)) hS4
  have hS6 := noSub_transfer (hasSub_del6 _ [' ', ' '] (by decide)) hS5
  have hS7 := noSub_transfer (hasSub_cnlS _ 0 [' ', ' '] (by decide)) hS6
  have hSo := noSub_transfer (hasSub_trim [' ', ' '] _) hS7
  have hA5 := noNlSp_del5 _ hS4
  have hA6 := noNlSp_del6 _ hA5
  have hA7 := noNlSp_cnlS _ hA6 0
  have hAo := noSub_transfer (hasSub_trim ['\n', ' '] _) hA7
  have hB6 := noSpNl_del6 _ hS5
  have hB7 := noSpNl_cnlS _ hB6 0
  have hBo := noSub_transfer (hasSub_trim [' ', '\n'] _) hB7
  have hC7 : hasSubL ['\n', '\n', '\n']
      (cnlS 0 (del6 (del5 (chs false (repNbsp (stripTags (st1 l))))))) = false :=
    no3nl_cnlS _ 0
  have hCo := noSub_transfer (hasSub_trim ['\n', '\n', '\n'] _) hC7
  show toPlainL (toPlainL l) = toPlainL l
  simp only [toPlainL]
  rw [st1_id _ hPo, stripTags_id _ hPo, repNbsp_id _ hNo, chs_id _ hTo hSo,
    del5_id _ hAo, del6_id _ hBo, cnl_id _ hCo]
  exact trim_idem _

/-- C9: Plain-text extraction stability — `htmlToPlainText` is idempotent.
For every string `s`, `htmlToPlainText(htmlToPlainText(s))` equals
`htmlToPlainText(s)`: re-applying the conversion to its own output changes
nothing.  The output of the pipeline leaves every remaining `<` with no
matchable tag, contains no `&nbsp;`, no tab, no double space, no space
adjacent to a newline and no triple newline, and is trimmed; each stage of
a second pass is therefore the identity. -/
theorem C9_toPlainText_idempotent (s : String) :
    htmlToPlainTextM (htmlToPlainTextM s) = htmlToPlainTextM s := by
  show (toPlainL ((toPlainL s.data).asString).data).asString = (toPlainL s.data).asString
  rw [show ((toPlainL s.data).asString).data = toPlainL s.data from rfl, toPlainL_fix]

end Spine
